import Mathlib

/-! # arduito: package resolution, installation plan and property narrowing

A shallow embedding of `arduino-packages.go` and `boards.go`.

* Go strings are Lean strings; slices are lists; a nil pointer result is `none`.
* A Go map is an association list with pairwise distinct keys (`mapGet`, `mapSet`); the
  order of the list stands for one iteration order of the map.
* A fatal exit (`log.Fatalf`) or a runtime panic is the result `none`.
* The libraries the program calls are parameters: `VersionLib` for
  `github.com/hashicorp/go-version`, a sorting function for `sort.Sort`, a URL parser for
  `net/url`, and an environment for the file system and the network. The sorting function
  is used with the contract of `sort.Sort` (`Rearranges`, `SortsWhenOrdered`); the insertion
  sort that `sort.Sort` runs on short slices keeps it, and `goVersion` follows the source of
  `go-version`.
-/

namespace Arduito

/-! ## Data model (`arduino-packages.go`, lines 26-83 and 138-141) -/

structure ToolDependency where
  Packager : String
  Version : String
  Name : String
deriving DecidableEq, Repr

structure PackagePlatform where
  Name : String
  Architecture : String
  Version : String
  URL : String
  ArchiveFileName : String
  Checksum : String
  Size : String
  ToolsDependencies : List ToolDependency
deriving DecidableEq, Repr

structure ToolSystem where
  URL : String
  Checksum : String
  Host : String
  ArchiveFileName : String
  Size : String
deriving DecidableEq, Repr

structure Tool where
  Version : String
  Name : String
  Systems : List ToolSystem
deriving DecidableEq, Repr

structure Package where
  Name : String
  Maintainer : String
  Platforms : List PackagePlatform
  Tools : List Tool
deriving DecidableEq, Repr

structure PackagesIndex where
  Packages : List Package
deriving DecidableEq, Repr

structure PackagesCollection where
  Indices : List PackagesIndex
deriving DecidableEq, Repr

structure LatestPackage where
  Package : Package
  Platform : PackagePlatform
deriving DecidableEq, Repr

/-! ## Tool lookup (lines 113-136) -/

/-- The innermost loop of `FindTools`: the tools of one package, in document order. -/
def findInTools (td : ToolDependency) : List Tool → Option Tool
  | [] => none
  | t :: ts => if t.Name = td.Name ∧ t.Version = td.Version then some t else findInTools td ts

/-- The middle loop of `FindTools`: the packages of one index, in document order. -/
def findInPackages (td : ToolDependency) : List Package → Option Tool
  | [] => none
  | pkg :: pkgs =>
    match findInTools td pkg.Tools with
    | some t => some t
    | none => findInPackages td pkgs

/-- The outer loop of `FindTools`: the indices, in load order. -/
def findInIndices (td : ToolDependency) : List PackagesIndex → Option Tool
  | [] => none
  | index :: rest =>
    match findInPackages td index.Packages with
    | some t => some t
    | none => findInIndices td rest

/-- The Go function `PackagesCollection.FindTools`. -/
def PackagesCollection.FindTools (pc : PackagesCollection) (td : ToolDependency) : Option Tool :=
  findInIndices td pc.Indices

/-- The Go function `contains`. -/
def contains (haystack : List String) (needle : String) : Bool :=
  match haystack with
  | [] => false
  | v :: rest => if v = needle then true else contains rest needle

/-- The inner loop of `ForSystem`: is the host of `ts` equal to some allowed candidate. -/
def hostAllowed (ts : ToolSystem) : List String → Bool
  | [] => false
  | candidate :: rest => if candidate = ts.Host then true else hostAllowed ts rest

/-- The outer loop of `ForSystem` over the variants in declared order. -/
def forSystemLoop (allowed : List String) : List ToolSystem → Option ToolSystem
  | [] => none
  | ts :: rest => if hostAllowed ts allowed then some ts else forSystemLoop allowed rest

/-- The Go function `Tool.ForSystem`. -/
def Tool.ForSystem (tool : Tool) (allowed : List String) : Option ToolSystem :=
  forSystemLoop allowed tool.Systems

/-- Every tool of the collection in scan order: indices in load order, then packages in
document order, then tools in document order. -/
def PackagesCollection.allTools (pc : PackagesCollection) : List Tool :=
  pc.Indices.flatMap (fun index => index.Packages.flatMap (fun pkg => pkg.Tools))

/-- The test `FindTools` applies to a tool. -/
def toolMatches (td : ToolDependency) (t : Tool) : Bool :=
  decide (t.Name = td.Name ∧ t.Version = td.Version)

/-! ## Go maps -/

/-- A Go `map[string]β`: an association list whose keys are pairwise distinct. -/
abbrev GoMap (β : Type) := List (String × β)

/-- The read `m[k]`; `none` when the key is absent. -/
def mapGet {β : Type} : GoMap β → String → Option β
  | [], _ => none
  | (k1, v) :: rest, k => if k1 = k then some v else mapGet rest k

/-- The write `m[k] = v`: replaces the value of an existing key, adds a new key otherwise. -/
def mapSet {β : Type} : GoMap β → String → β → GoMap β
  | [], k, v => [(k, v)]
  | (k1, v1) :: rest, k, v => if k1 = k then (k1, v) :: rest else (k1, v1) :: mapSet rest k v

/-- The keys of a map. -/
def mapKeys {β : Type} (m : GoMap β) : List String := m.map Prod.fst

/-! ## Version comparison and sorting (lines 85-93) -/

/-- The part of `github.com/hashicorp/go-version` the program uses: `NewVersion` (`none` is
the nil version returned with an error) and `Compare`. -/
structure VersionLib where
  Version : Type
  NewVersion : String → Option Version
  Compare : Version → Version → Int

/-- The Go function `Version.LessThan`: `v.Compare(o) < 0`. -/
def VersionLib.LessThan (lib : VersionLib) (v o : lib.Version) : Bool :=
  decide (lib.Compare v o < 0)

/-- The Go function `Version.GreaterThanOrEqual`: `v.Compare(o) >= 0`. -/
def VersionLib.GreaterThanOrEqual (lib : VersionLib) (v o : lib.Version) : Bool :=
  decide (lib.Compare v o ≥ 0)

/-- The Go function `ByVersion.Less` on the two elements it is asked about: `none` is the nil dereference that
follows a version that does not parse (the error of `NewVersion` is discarded). -/
def ByVersion.Less (lib : VersionLib) (x y : LatestPackage) : Option Bool :=
  match lib.NewVersion x.Platform.Version, lib.NewVersion y.Platform.Version with
  | some vA, some vB => some (lib.LessThan vB vA)
  | _, _ => none

/-- The function `sort.Sort` as a parameter: it receives the `Less` of the data and the slice. -/
abbrev Sorter := (LatestPackage → LatestPackage → Bool) → List LatestPackage → List LatestPackage

/-- The comparison handed to the sorter; it is only evaluated on versions that parse. -/
def lessOrFalse (lib : VersionLib) (x y : LatestPackage) : Bool :=
  (ByVersion.Less lib x y).getD false

/-- Does the version of the candidate parse. -/
def versionParses (lib : VersionLib) (lp : LatestPackage) : Bool :=
  (lib.NewVersion lp.Platform.Version).isSome

/-- The call `sort.Sort(ByVersion(all))`. A slice of fewer than two elements is left alone without a
call of `Less`; on a longer slice every element is compared at least once, so a version that
does not parse ends the run (`none`). -/
def sortByVersion (lib : VersionLib) (srt : Sorter) (all : List LatestPackage) :
    Option (List LatestPackage) :=
  if all.length < 2 then some all
  else if all.all (versionParses lib) then some (srt (lessOrFalse lib) all)
  else none

/-- The first half of the contract of `sort.Sort`: it reaches the slice through `Swap` only,
so whatever `Less` answers, the result is a rearrangement of the input. -/
def Rearranges (srt : Sorter) : Prop :=
  ∀ (less : LatestPackage → LatestPackage → Bool) (l : List LatestPackage),
    (srt less l).Perm l

/-- The comparison `less` is a strict weak order on the elements of `l`: nothing is less than
itself, less-than is transitive, and so is not-less-than. -/
def StrictWeakOn (less : LatestPackage → LatestPackage → Bool) (l : List LatestPackage) :
    Prop :=
  (∀ x ∈ l, less x x = false) ∧
  (∀ x ∈ l, ∀ y ∈ l, ∀ z ∈ l, less x y = true → less y z = true → less x z = true) ∧
  (∀ x ∈ l, ∀ y ∈ l, ∀ z ∈ l, less x y = false → less y z = false → less x z = false)

instance (less : LatestPackage → LatestPackage → Bool) (l : List LatestPackage) :
    Decidable (StrictWeakOn less l) :=
  inferInstanceAs (Decidable (
    (∀ x ∈ l, less x x = false) ∧
    (∀ x ∈ l, ∀ y ∈ l, ∀ z ∈ l, less x y = true → less y z = true → less x z = true) ∧
    (∀ x ∈ l, ∀ y ∈ l, ∀ z ∈ l, less x y = false → less y z = false → less x z = false)))

/-- The second half of the contract of `sort.Sort`: when `Less` is a strict weak order on the
elements of the slice, no element of the result is `Less` than one that precedes it. -/
def SortsWhenOrdered (srt : Sorter) : Prop :=
  ∀ (less : LatestPackage → LatestPackage → Bool) (l : List LatestPackage),
    StrictWeakOn less l → (srt less l).Pairwise (fun x y => less y x = false)

/-! ## Resolution by architecture (lines 152-188) -/

/-- Lines 162-168: append one candidate to the group of its platform name. -/
def groupInsert (byName : GoMap (List LatestPackage)) (lp : LatestPackage) :
    GoMap (List LatestPackage) :=
  mapSet byName lp.Platform.Name ((mapGet byName lp.Platform.Name).getD [] ++ [lp])

/-- Lines 160-170: the loop over the platforms of one package. -/
def collectPlatforms (arch : String) (pkg : Package) (byName : GoMap (List LatestPackage)) :
    List PackagePlatform → GoMap (List LatestPackage)
  | [] => byName
  | p :: ps =>
    if p.Architecture = arch then collectPlatforms arch pkg (groupInsert byName ⟨pkg, p⟩) ps
    else collectPlatforms arch pkg byName ps

/-- Lines 156-171: the loop over the packages of one index. -/
def collectPackages (packages : List String) (arch : String)
    (byName : GoMap (List LatestPackage)) : List Package → GoMap (List LatestPackage)
  | [] => byName
  | pkg :: pkgs =>
    if !contains packages pkg.Name then collectPackages packages arch byName pkgs
    else collectPackages packages arch (collectPlatforms arch pkg byName pkg.Platforms) pkgs

/-- Lines 155-172: the loop over the indices. -/
def collectIndices (packages : List String) (arch : String)
    (byName : GoMap (List LatestPackage)) : List PackagesIndex → GoMap (List LatestPackage)
  | [] => byName
  | index :: rest =>
    collectIndices packages arch (collectPackages packages arch byName index.Packages) rest

/-- Lines 178-184: the loop that lets a candidate whose version string equals the pin replace
the current selection; it has no `break`. -/
def pinLoop (specificVersion : String) (cur : LatestPackage) : List LatestPackage → LatestPackage
  | [] => cur
  | lp :: rest =>
    if specificVersion = lp.Platform.Version then pinLoop specificVersion lp rest
    else pinLoop specificVersion cur rest

/-- Lines 175-184 for one group: sort, take `all[0]`, then apply the pin. -/
def selectLatest (lib : VersionLib) (srt : Sorter) (specificVersion : String)
    (all : List LatestPackage) : Option LatestPackage :=
  match sortByVersion lib srt all with
  | none => none
  | some [] => none
  | some (first :: rest) =>
    if specificVersion ≠ "" then some (pinLoop specificVersion first (first :: rest))
    else some first

/-- Lines 174-185: the loop over the groups. -/
def selectLoop (lib : VersionLib) (srt : Sorter) (specificVersion : String)
    (latest : GoMap LatestPackage) : GoMap (List LatestPackage) → Option (GoMap LatestPackage)
  | [] => some latest
  | (name, all) :: rest =>
    match selectLatest lib srt specificVersion all with
    | none => none
    | some lp => selectLoop lib srt specificVersion (mapSet latest name lp) rest

/-- The Go function `PackagesCollection.Architecture`. -/
def PackagesCollection.Architecture (lib : VersionLib) (srt : Sorter) (pc : PackagesCollection)
    (packages : List String) (arch : String) (specificVersion : String) :
    Option (GoMap LatestPackage) :=
  selectLoop lib srt specificVersion [] (collectIndices packages arch [] pc.Indices)

/-- The candidates of a call in scan order: the platforms of architecture `arch` inside the
packages whose name is in `packages`. -/
def PackagesCollection.candidates (pc : PackagesCollection) (packages : List String)
    (arch : String) : List LatestPackage :=
  pc.Indices.flatMap (fun index =>
    index.Packages.flatMap (fun pkg =>
      if contains packages pkg.Name then
        (pkg.Platforms.filter (fun p => decide (p.Architecture = arch))).map
          (fun p => LatestPackage.mk pkg p)
      else []))

/-- The candidates of a call that carry the platform name `name`. -/
def PackagesCollection.group (pc : PackagesCollection) (packages : List String)
    (arch : String) (name : String) : List LatestPackage :=
  (pc.candidates packages arch).filter (fun lp => decide (lp.Platform.Name = name))

/-! ## Dotted numeric versions and the insertion sort, for concrete runs -/

/-- The value of a decimal digit. -/
def digitValue (c : Char) : Option Nat :=
  if 48 ≤ c.toNat ∧ c.toNat ≤ 57 then some (c.toNat - 48) else none

/-- A decimal number read from the left with accumulator `acc`. -/
def readDigits (acc : Nat) : List Char → Option Nat
  | [] => some acc
  | c :: cs =>
    match digitValue c with
    | none => none
    | some d => readDigits (acc * 10 + d) cs

/-- A non-empty string of decimal digits. -/
def readNat : List Char → Option Nat
  | [] => none
  | c :: cs => readDigits 0 (c :: cs)

/-- Cut a string at every occurrence of `sep`; `cur` holds the piece being read, reversed. -/
def splitAt (sep : Char) (cur : List Char) : List Char → List (List Char)
  | [] => [cur.reverse]
  | c :: cs => if c = sep then cur.reverse :: splitAt sep [] cs else splitAt sep (c :: cur) cs

/-- Read every piece as a number. -/
def readAll : List (List Char) → Option (List Nat)
  | [] => some []
  | s :: rest =>
    match readNat s, readAll rest with
    | some n, some ns => some (n :: ns)
    | _, _ => none

/-- Segment-wise comparison from the left; where one version has fewer segments, the other is
greater exactly when its remaining segments are not all zero. -/
def compareSegments : List Nat → List Nat → Int
  | [], bs => if bs.all (fun b => decide (b = 0)) then 0 else -1
  | a :: as, [] => if (a :: as).all (fun b => decide (b = 0)) then 0 else 1
  | a :: as, b :: bs => if a < b then -1 else if b < a then 1 else compareSegments as bs

/-- An instance of `VersionLib` for plain dotted decimal versions such as `1.6.20`: the
segments are compared as numbers from the left. Versions with a prefix, a pre-release or
metadata are not read by this instance. -/
def numericVersions : VersionLib where
  Version := List Nat
  NewVersion := fun s => readAll (splitAt (Char.ofNat 46) [] s.data)
  Compare := compareSegments

/-- The insertion step of Go's `insertionSort`: `x` moves left past every element it is `Less`
than; the sorted part is held reversed (last element first). -/
def sinkLeft (less : LatestPackage → LatestPackage → Bool) (x : LatestPackage) :
    List LatestPackage → List LatestPackage
  | [] => [x]
  | y :: ys => if less x y then y :: sinkLeft less x ys else x :: y :: ys

/-- Go's `insertionSort`, the routine `sort.Sort` runs on a slice of at most twelve elements
(Go 1.19 and later). -/
def insertionSort : Sorter :=
  fun less all => (all.foldl (fun sortedRev x => sinkLeft less x sortedRev) []).reverse
/-! ## Installation plan (lines 190-217) -/

structure InstallFile where
  Path : String
  FileName : String
  URL : String
  Size : Nat
deriving DecidableEq, Repr

structure InstallationPlan where
  Files : List InstallFile
deriving DecidableEq, Repr

/-- What the program reads from a parsed `url.URL`; `EscapedPath` is the result of the method
of that name. -/
structure URL where
  Scheme : String
  Host : String
  EscapedPath : String
  RawQuery : String
  Fragment : String
deriving DecidableEq, Repr

/-- The function `url.Parse` as a parameter; `none` is a parse error. -/
abbrev UrlParser := String → Option URL

/-- The loop of `filepath.Base` that removes trailing separators. -/
def stripTrailingSlashes (path : List Char) : List Char :=
  (path.reverse.dropWhile (fun c => decide (c = '/'))).reverse

/-- The part of a path after its last separator (the whole path when it has none). -/
def lastElement (path : List Char) : List Char :=
  (path.reverse.takeWhile (fun c => decide (c ≠ '/'))).reverse

/-- The Go function `filepath.Base` on a system whose separator is the slash: `.` for the empty path, the
separator for a path of separators only, the last element otherwise. -/
def filepathBase (path : String) : String :=
  if path.data = [] then "."
  else
    let last := lastElement (stripTrailingSlashes path.data)
    if last = [] then "/" else String.mk last

/-- The slash-separated segments of a path, empty ones included. -/
def pathSegments (path : String) : List String :=
  (splitAt '/' [] path.data).map String.mk

/-- The unsigned part of `strconv.ParseInt` in base ten: a non-empty string of digits. -/
def parseUint (s : List Char) : Option Nat := readNat s

/-- The call `strconv.ParseInt(size, 10, 32)`: an optional sign, then digits; a value outside the range
of a 32-bit signed integer is an error. -/
def parseInt32 (size : String) : Option Int :=
  match size.data with
  | [] => none
  | c :: cs =>
    if c = '-' then
      match parseUint cs with
      | some un => if un ≤ 2147483648 then some (-(un : Int)) else none
      | none => none
    else
      match parseUint (if c = '+' then cs else c :: cs) with
      | some un => if un < 2147483648 then some (un : Int) else none
      | none => none

/-- The conversion `uint32(sz)`. -/
def toUint32 (sz : Int) : Nat := (sz % 4294967296).toNat

/-- The Go function `InstallationPlan.Add`; `none` is one of its two `log.Fatalf` exits. -/
def InstallationPlan.Add (urlParse : UrlParser) (ip : InstallationPlan)
    (path downloadUrl size : String) : Option InstallationPlan :=
  match urlParse downloadUrl with
  | none => none
  | some u =>
    match parseInt32 size with
    | none => none
    | some sz =>
      some ⟨ip.Files ++ [⟨path, filepathBase u.EscapedPath, downloadUrl, toUint32 sz⟩]⟩

/-! ## Plan building in `main` (lines 345-376) -/

/-- The call `fmt.Sprintf("%s/%s/%s/%s/%s", a, b, c, d, e)`. -/
def sprintfPath (a b c d e : String) : String :=
  a ++ "/" ++ b ++ "/" ++ c ++ "/" ++ d ++ "/" ++ e

/-- Does the string hold no slash. -/
def slashFree (s : String) : Bool := s.data.all (fun c => decide (c ≠ '/'))

/-- The key of a plan entry: package name, role, architecture or tool name, version. -/
abbrev PlanKey := String × String × String × String

/-- The destination path of the entry with key `k`. -/
def keyPath (rootDirectory : String) (k : PlanKey) : String :=
  sprintfPath rootDirectory k.1 k.2.1 k.2.2.1 k.2.2.2

/-- The keys of the entries the driver asks for: per resolved package its hardware key, then
one key per tool dependency. -/
def planKeys (packages : List LatestPackage) : List PlanKey :=
  packages.flatMap (fun p =>
    (p.Package.Name, "hardware", p.Platform.Architecture, p.Platform.Version) ::
      p.Platform.ToolsDependencies.map (fun td => (p.Package.Name, "tools", td.Name, td.Version)))

/-- The allow-list of host identifiers of line 352. -/
def systems : List String := ["x86_64-pc-linux-gnu", "x86_64-linux-gnu"]

/-- Lines 362-375: the loop over the tool dependencies of one resolved package. A tool that is
not found is a nil pointer that `ForSystem` dereferences; a missing variant is `log.Fatalf`. -/
def planTools (urlParse : UrlParser) (pc : PackagesCollection) (rootDirectory : String)
    (p : LatestPackage) (plan : InstallationPlan) : List ToolDependency → Option InstallationPlan
  | [] => some plan
  | td :: tds =>
    match pc.FindTools td with
    | none => none
    | some tool =>
      match tool.ForSystem systems with
      | none => none
      | some forSystem =>
        match plan.Add urlParse
            (sprintfPath rootDirectory p.Package.Name "tools" tool.Name tool.Version)
            forSystem.URL forSystem.Size with
        | none => none
        | some plan1 => planTools urlParse pc rootDirectory p plan1 tds

/-- Lines 354-376: the loop over the resolved packages. -/
def planPackages (urlParse : UrlParser) (pc : PackagesCollection) (rootDirectory : String)
    (plan : InstallationPlan) : List LatestPackage → Option InstallationPlan
  | [] => some plan
  | p :: rest =>
    match plan.Add urlParse
        (sprintfPath rootDirectory p.Package.Name "hardware" p.Platform.Architecture
          p.Platform.Version)
        p.Platform.URL p.Platform.Size with
    | none => none
    | some plan1 =>
      match planTools urlParse pc rootDirectory p plan1 p.Platform.ToolsDependencies with
      | none => none
      | some plan2 => planPackages urlParse pc rootDirectory plan2 rest

/-- Lines 345-376: the plan starts empty. -/
def buildPlan (urlParse : UrlParser) (pc : PackagesCollection) (rootDirectory : String)
    (packages : List LatestPackage) : Option InstallationPlan :=
  planPackages urlParse pc rootDirectory ⟨[]⟩ packages

/-! ## Plan execution (lines 219-317) -/

/-- What a run does to the outside world. -/
inductive Event where
  | download (file : InstallFile)
  | extract (file : InstallFile)
deriving DecidableEq, Repr

/-- The outside world during one run: which operations succeed and which paths they bring
into existence. -/
structure Env where
  /-- Whether `pb.StartPool` succeeds. -/
  poolOk : Bool
  /-- Whether `downloadFile` ends without a fatal error. -/
  downloadOk : InstallFile → Bool
  /-- Whether, in a run that a fatal download ends, the request of this entry was issued
  before the process exited. -/
  requested : InstallFile → Bool
  /-- Whether, in a run that a fatal download ends, the archive file of this entry was created
  before the process exited. -/
  archiveCreated : InstallFile → Bool
  /-- Whether `ioutil.TempDir` succeeds. -/
  tempDirOk : Bool
  /-- Whether `os.MkdirAll(path.Dir(file.Path))` succeeds. -/
  mkdirOk : InstallFile → Bool
  /-- The directories `os.MkdirAll` creates. -/
  parents : InstallFile → List String
  /-- Whether `os.Open(file.FileName)` succeeds. -/
  openOk : InstallFile → Bool
  /-- The number of entries of the scratch directory after `extract.Archive`. -/
  extracted : InstallFile → Nat
  /-- Whether `os.Rename` succeeds. -/
  renameOk : InstallFile → Bool
  /-- The paths below `file.Path` that exist after the rename. -/
  contents : InstallFile → List String

/-- The state of a run: the events so far, the paths for which `os.Stat` does not report
`IsNotExist`, and whether `Execute` returned. -/
structure Run where
  events : List Event
  fs : List String
  completed : Bool
deriving DecidableEq, Repr

/-- Lines 257-293: the sequential extraction loop. -/
def extractLoop (env : Env) (run : Run) : List InstallFile → Run
  | [] => { run with completed := true }
  | file :: rest =>
    if file.Path ∈ run.fs then extractLoop env run rest
    else if !env.mkdirOk file then run
    else if !env.openOk file then { run with fs := run.fs ++ env.parents file }
    else if env.extracted file ≠ 1 ∨ !env.renameOk file then
      { run with events := run.events ++ [Event.extract file],
                 fs := run.fs ++ env.parents file }
    else
      extractLoop env
        { run with events := run.events ++ [Event.extract file],
                   fs := run.fs ++ env.parents file ++ file.Path :: env.contents file }
        rest

/-- Lines 220-225: the entries whose archive file `os.Stat` reports as not existing. -/
def downloadingOf (fs : List String) (files : List InstallFile) : List InstallFile :=
  files.filter (fun file => decide (file.FileName ∉ fs))

/-- The Go function `InstallationPlan.Execute` from the file-system state `fs`. The downloads run
concurrently; when all of them end well their requests are listed in plan order. When one of
them is fatal the process exits at once, and which of the other requests were issued by then
is for the outside world to say. -/
def InstallationPlan.Execute (env : Env) (fs : List String) (ip : InstallationPlan) : Run :=
  let downloading := downloadingOf fs ip.Files
  if !env.poolOk then ⟨[], fs, false⟩
  else if !downloading.all env.downloadOk then
    ⟨(downloading.filter env.requested).map Event.download,
      fs ++ (downloading.filter env.archiveCreated).map (fun file => file.FileName), false⟩
  else
    let started : Run :=
      ⟨downloading.map Event.download, fs ++ downloading.map (fun file => file.FileName), false⟩
    if !env.tempDirOk then started
    else extractLoop env started ip.Files

/-- Lines 337-343: the values of the two result maps, `arduino` first. -/
def resolvedPackages (arduino adafruit : GoMap LatestPackage) : List LatestPackage :=
  arduino.map Prod.snd ++ adafruit.map Prod.snd

/-- Lines 345-378 of `main`: build the plan for `packages`, then execute it. When plan
building ends the process, `Execute` is not reached. -/
def runPlan (urlParse : UrlParser) (env : Env) (fs : List String) (pc : PackagesCollection)
    (rootDirectory : String) (packages : List LatestPackage) : Run :=
  match buildPlan urlParse pc rootDirectory packages with
  | none => ⟨[], fs, false⟩
  | some plan => plan.Execute env fs

/-- Lines 334-378 of `main` for a loaded collection. -/
def mainRun (lib : VersionLib) (srt : Sorter) (urlParse : UrlParser) (env : Env)
    (fs : List String) (pc : PackagesCollection) (rootDirectory : String) : Run :=
  match pc.Architecture lib srt ["adafruit"] "samd" "1.2.9",
        pc.Architecture lib srt ["arduino"] "samd" "1.6.17" with
  | some adafruit, some arduino =>
    runPlan urlParse env fs pc rootDirectory (resolvedPackages arduino adafruit)
  | _, _ => ⟨[], fs, false⟩

/-! ## Properties (`boards.go`, lines 12-14 and 79-93) -/

structure Properties where
  Map : GoMap String
deriving DecidableEq, Repr

/-- The Go function `strings.HasPrefix(s, p)`. -/
def hasPrefix (s p : String) : Bool := p.data.isPrefixOf s.data

/-- The slice `s[n:]`. -/
def sliceFrom (s : String) (n : Nat) : String := String.mk (s.data.drop n)

/-- Lines 86-90: the loop over the entries of the map. -/
def narrowLoop (dotted : String) (n : GoMap String) : GoMap String → GoMap String
  | [] => n
  | (key, value) :: rest =>
    if hasPrefix key dotted then
      narrowLoop dotted (mapSet n (sliceFrom key dotted.data.length) value) rest
    else narrowLoop dotted n rest

/-- The Go function `Properties.Narrow`. -/
def Properties.Narrow (p : Properties) (pfx : String) : Properties :=
  ⟨narrowLoop (pfx ++ ".") [] p.Map⟩

/-! ## A small URL parser, for concrete runs -/

/-- The part of a string before the first `sep` and, when there is one, the part after it. -/
def cutAt (sep : Char) : List Char → List Char × Option (List Char)
  | [] => ([], none)
  | c :: cs =>
    if c = sep then ([], some cs)
    else ((c :: (cutAt sep cs).1), (cutAt sep cs).2)

/-- The text of an optional part. -/
def textOf (part : Option (List Char)) : String := String.mk (part.getD [])

/-- An instance of `UrlParser` for URLs of the shape `scheme://host/path?query#fragment` whose
path is already in escaped form; other strings are not read by this instance. -/
def simpleUrlParse : UrlParser := fun s =>
  let beforeFragment := cutAt '#' s.data
  let beforeQuery := cutAt '?' beforeFragment.1
  let scheme := cutAt ':' beforeQuery.1
  match scheme.2 with
  | some ('/' :: '/' :: rest) =>
    some ⟨String.mk scheme.1, String.mk (rest.takeWhile (fun c => decide (c ≠ '/'))),
          String.mk (rest.dropWhile (fun c => decide (c ≠ '/'))),
          textOf beforeQuery.2, textOf beforeFragment.2⟩
  | _ => none

/-- An outside world in which every operation succeeds and every archive holds one directory. -/
def fairEnv : Env where
  poolOk := true
  downloadOk := fun _ => true
  requested := fun _ => true
  archiveCreated := fun _ => true
  tempDirOk := true
  mkdirOk := fun _ => true
  parents := fun _ => []
  openOk := fun _ => true
  extracted := fun _ => 1
  renameOk := fun _ => true
  contents := fun _ => []
/-! ## The version library `go-version`, for concrete runs -/

/-- A version as `go-version` holds it: the numeric segments, the pre-release and the
metadata. -/
structure GoVersion where
  segments : List Nat
  pre : String
  metadata : String
deriving DecidableEq, Repr

/-- Is the character a decimal digit. -/
def isDigitChar (c : Char) : Bool := decide (48 ≤ c.toNat ∧ c.toNat ≤ 57)

/-- Is the character a letter of the ASCII alphabet. -/
def isLetterChar (c : Char) : Bool :=
  decide ((65 ≤ c.toNat ∧ c.toNat ≤ 90) ∨ (97 ≤ c.toNat ∧ c.toNat ≤ 122))

/-- The characters of a pre-release or of metadata: letters, digits, dash, tilde and the dot
between parts. -/
def isIdentChar (c : Char) : Bool :=
  isDigitChar c || isLetterChar c || decide (c = '-') || decide (c = '~') || decide (c = '.')

/-- An identifier of `go-version`: dotted parts, none of them empty, of letters, digits,
dashes and tildes. -/
def isIdentifier (s : List Char) : Bool :=
  s.all isIdentChar && (splitAt '.' [] s).all (fun part => decide (part ≠ []))

/-- The pre-release that follows the segments: nothing, or a dash and an identifier, or an
identifier that starts with a letter or a tilde. -/
def readPre : List Char → Option (List Char)
  | [] => some []
  | c :: cs =>
    if c = '-' then
      if isIdentifier cs then some cs else none
    else if (isLetterChar c || decide (c = '~')) ∧ isIdentifier (c :: cs) then some (c :: cs)
    else none

/-- The metadata after the plus sign, when there is one. -/
def readMetadata : Option (List Char) → Option (List Char)
  | none => some []
  | some m => if isIdentifier m then some m else none

/-- The padding of `NewVersion`: fewer than three segments are filled up with zeros. -/
def padSegments (segments : List Nat) : List Nat :=
  segments ++ List.replicate (3 - segments.length) 0

/-- The function `NewVersion` of `go-version`: an optional `v`, dotted decimal segments (each
within 64 bits), an optional pre-release, an optional metadata part after a plus sign. -/
def goNewVersion (v : String) : Option GoVersion :=
  let body := match v.data with
    | c :: rest => if c = 'v' then rest else c :: rest
    | [] => []
  let parts := cutAt '+' body
  let numeric := parts.1.takeWhile (fun c => isDigitChar c || decide (c = '.'))
  let tail := parts.1.dropWhile (fun c => isDigitChar c || decide (c = '.'))
  match readAll (splitAt '.' [] numeric), readPre tail, readMetadata parts.2 with
  | some segments, some pre, some metadata =>
    if segments.all (fun n => decide (n < 9223372036854775808)) then
      some ⟨padSegments segments, String.mk pre, String.mk metadata⟩
    else none
  | _, _, _ => none

/-- The call `strconv.ParseInt(part, 10, 64)` on a part of a pre-release. -/
def parseInt64 (part : List Char) : Option Int :=
  match part with
  | [] => none
  | c :: cs =>
    if c = '-' then
      match readNat cs with
      | some un => if un ≤ 9223372036854775808 then some (-(un : Int)) else none
      | none => none
    else
      match readNat (if c = '+' then cs else c :: cs) with
      | some un => if un < 9223372036854775808 then some (un : Int) else none
      | none => none

/-- The comparison `a > b` of two Go strings of ASCII characters. -/
def charsGreater : List Char → List Char → Bool
  | [], _ => false
  | _ :: _, [] => true
  | a :: as, b :: bs => if b.toNat < a.toNat then true else if a.toNat < b.toNat then false
      else charsGreater as bs

/-- The function `comparePart` of `go-version`. -/
def comparePart (preSelf preOther : List Char) : Int :=
  if preSelf = preOther then 0
  else
    let selfNumeric := (parseInt64 preSelf).isSome
    let otherNumeric := (parseInt64 preOther).isSome
    if preSelf = [] then (if otherNumeric then -1 else 1)
    else if preOther = [] then (if selfNumeric then 1 else -1)
    else if selfNumeric ∧ ¬ otherNumeric then -1
    else if ¬ selfNumeric ∧ otherNumeric then 1
    else if ¬ selfNumeric ∧ ¬ otherNumeric ∧ charsGreater preSelf preOther then 1
    else if (parseInt64 preSelf).getD 0 > (parseInt64 preOther).getD 0 then 1
    else -1

/-- The end of the loop of `comparePrereleases` when the parts of the receiver are used up. -/
def compareRest : List (List Char) → Int
  | [] => 0
  | b :: bs => if comparePart [] b ≠ 0 then comparePart [] b else compareRest bs

/-- The loop of `comparePrereleases` over the dotted parts; a missing part counts as the
empty string. -/
def compareParts : List (List Char) → List (List Char) → Int
  | [], bs => compareRest bs
  | a :: as, [] => if comparePart a [] ≠ 0 then comparePart a [] else compareParts as []
  | a :: as, b :: bs => if comparePart a b ≠ 0 then comparePart a b else compareParts as bs

/-- The function `comparePrereleases` of `go-version`. -/
def comparePrereleases (v other : String) : Int :=
  if v = other then 0
  else compareParts (splitAt '.' [] v.data) (splitAt '.' [] other.data)

/-- The method `Compare` of `go-version`: versions with the same segments are compared by
their pre-releases, a version without one being the greater; other versions are compared by
their segments. Its first test, on equal strings, gives the same answer as these do. -/
def goCompare (v other : GoVersion) : Int :=
  if v.segments = other.segments then
    if v.pre = "" ∧ other.pre = "" then 0
    else if v.pre = "" then 1
    else if other.pre = "" then -1
    else comparePrereleases v.pre other.pre
  else compareSegments v.segments other.segments

/-- The library `go-version` as an instance of `VersionLib`. -/
def goVersion : VersionLib where
  Version := GoVersion
  NewVersion := goNewVersion
  Compare := goCompare
/-! ## Concrete data used by the examples -/

/-- A tool variant for a darwin host. -/
def darwinVariant : ToolSystem :=
  ⟨"http://downloads.arduino.cc/bossac-1.7.0-i386-apple-darwin15.6.0.tar.gz", "",
    "i386-apple-darwin11", "bossac-1.7.0-i386-apple-darwin15.6.0.tar.gz", "63822"⟩

/-- A tool variant for a linux host. -/
def linuxVariant : ToolSystem :=
  ⟨"http://downloads.arduino.cc/bossac-1.7.0-x86_64-linux-gnu.tar.gz", "",
    "x86_64-pc-linux-gnu", "bossac-1.7.0-x86_64-linux-gnu.tar.gz", "31373"⟩

/-- A properties map as read from a `boards.txt`. -/
def boardsExample : Properties :=
  ⟨[("adafruit_feather_m0.name", "Adafruit Feather M0"),
    ("adafruit_feather_m0", "bare"),
    ("adafruit_feather_m0.build.mcu", "cortex-m0plus"),
    ("adafruit_feather_m0_express.name", "Adafruit Feather M0 Express"),
    ("menu.cpu", "Processor")]⟩

/-- A plan entry for the hardware archive of `arduino` `samd` 1.6.17. -/
def placedEntry : InstallFile :=
  ⟨"/tmp/working/arduino/hardware/samd/1.6.17", "samd-1.6.17.tar.bz2",
    "http://downloads.arduino.cc/cores/samd-1.6.17.tar.bz2", 2039508⟩

/-- The dependency on `bossac` 1.7.0. -/
def bossacDependency : ToolDependency := ⟨"arduino", "1.7.0", "bossac"⟩

/-- The dependency on a compiler that no index of the examples provides. -/
def gccDependency : ToolDependency := ⟨"arduino", "4.8.3-2014q1", "arm-none-eabi-gcc"⟩

/-- The tool `bossac` 1.7.0 with a darwin and a linux variant. -/
def bossac : Tool := ⟨"1.7.0", "bossac", [darwinVariant, linuxVariant]⟩

/-- A `samd` platform named `arduino`. -/
def arduinoCore (version : String) : PackagePlatform :=
  ⟨"arduino", "samd", version, "http://downloads.arduino.cc/cores/samd-" ++ version ++ ".tar.bz2",
    "samd-" ++ version ++ ".tar.bz2", "", "2039508", [bossacDependency]⟩

/-- A `samd` platform named `adafruit`. -/
def adafruitCore (version : String) : PackagePlatform :=
  ⟨"adafruit", "samd", version,
    "https://adafruit.github.io/arduino-board-index/boards/adafruit-samd-" ++ version ++ ".tar.bz2",
    "adafruit-samd-" ++ version ++ ".tar.bz2", "", "1457724", [bossacDependency, gccDependency]⟩

/-- The package `arduino`: three `samd` releases, one `avr` release, and the tool `bossac`. -/
def arduinoPackage : Package :=
  ⟨"arduino", "Arduino",
    [arduinoCore "1.6.15", arduinoCore "1.6.20",
      ⟨"arduino", "avr", "1.8.0", "http://downloads.arduino.cc/cores/avr-1.8.0.tar.bz2",
        "avr-1.8.0.tar.bz2", "", "4897949", []⟩,
      arduinoCore "1.6.17"],
    [bossac]⟩

/-- The package `adafruit`: two `samd` releases and no tools. -/
def adafruitPackage : Package :=
  ⟨"adafruit", "Adafruit", [adafruitCore "1.2.8", adafruitCore "1.2.9"], []⟩

/-- Two indices, loaded in the order of `main`. -/
def exampleCollection : PackagesCollection :=
  ⟨[⟨[adafruitPackage]⟩, ⟨[arduinoPackage]⟩]⟩

/-- The plan for the `arduino` platform 1.6.17 and its tool. -/
def arduinoPlan : InstallationPlan :=
  ⟨[⟨"/tmp/working/arduino/hardware/samd/1.6.17", "samd-1.6.17.tar.bz2",
      "http://downloads.arduino.cc/cores/samd-1.6.17.tar.bz2", 2039508⟩,
    ⟨"/tmp/working/arduino/tools/bossac/1.7.0", "bossac-1.7.0-x86_64-linux-gnu.tar.gz",
      "http://downloads.arduino.cc/bossac-1.7.0-x86_64-linux-gnu.tar.gz", 31373⟩]⟩

/-- A `samd` platform of the package `arduino`. -/
def samdBoards : PackagePlatform :=
  ⟨"Arduino SAMD Boards", "samd", "1.6.17",
    "http://downloads.arduino.cc/cores/samd-1.6.17.tar.bz2", "samd-1.6.17.tar.bz2", "",
    "2039508", [bossacDependency]⟩

/-- A second `samd` platform of the same package under another platform name. -/
def samdBetaBoards : PackagePlatform :=
  ⟨"Arduino SAMD Beta Boards", "samd", "1.0.0",
    "http://downloads.arduino.cc/cores/samd-beta-1.0.0.tar.bz2", "samd-beta-1.0.0.tar.bz2", "",
    "1846212", [bossacDependency]⟩

/-- A package whose two `samd` platforms need the same tool. -/
def sharedToolPackage : Package :=
  ⟨"arduino", "Arduino", [samdBoards, samdBetaBoards], [bossac]⟩

/-- One index with that package. -/
def sharedToolCollection : PackagesCollection := ⟨[⟨[sharedToolPackage]⟩]⟩

/-- A package with the releases 1.6.9 and 1.6.10 of one platform. -/
def twoDigitCollection : PackagesCollection :=
  ⟨[⟨[⟨"arduino", "Arduino", [arduinoCore "1.6.9", arduinoCore "1.6.10"], [bossac]⟩]⟩]⟩

/-- The platform `samd-core` 1.6.17 as served by `host`. -/
def mirrorCore (host : String) : PackagePlatform :=
  ⟨"samd-core", "samd", "1.6.17", "http://" ++ host ++ "/cores/samd-1.6.17.tar.bz2",
    "samd-1.6.17.tar.bz2", "", "2039508", []⟩

/-- A package that offers `samd-core` 1.6.17 from `host`. -/
def mirrorPackage (name host : String) : Package :=
  ⟨name, "Arduino", [mirrorCore host], []⟩

/-- Two indices whose packages define the same platform name, architecture and version. -/
def mirrorCollection : PackagesCollection :=
  ⟨[⟨[mirrorPackage "arduino" "downloads.arduino.cc"]⟩,
    ⟨[mirrorPackage "arduino-mirror" "mirror.example.org"]⟩]⟩

/-- A package with a pre-release, a four-segment release and the plain release of one
platform, in this order. -/
def preReleasePackage : Package :=
  ⟨"arduino", "Arduino",
    [arduinoCore "1.0.0-beta", arduinoCore "1.0.0.0", arduinoCore "1.0.0"], [bossac]⟩

/-- One index with that package. -/
def preReleaseCollection : PackagesCollection := ⟨[⟨[preReleasePackage]⟩]⟩
/-! ## Lemmas: tool lookup -/

theorem findInTools_eq_find (td : ToolDependency) (ts : List Tool) :
    findInTools td ts = ts.find? (toolMatches td) := by
  induction ts with
  | nil => rfl
  | cons t ts ih =>
    by_cases h : t.Name = td.Name ∧ t.Version = td.Version
    · simp [findInTools, toolMatches, h]
    · simp only [findInTools, if_neg h, ih, List.find?_cons, toolMatches, decide_eq_false h]

theorem find_append_case {α : Type} (p : α → Bool) (xs ys : List α) :
    (xs ++ ys).find? p = (match xs.find? p with | some t => some t | none => ys.find? p) := by
  induction xs with
  | nil => rfl
  | cons x xs ih =>
    by_cases h : p x
    · simp [List.find?_cons, h]
    · simp [List.find?_cons, h, ih]

theorem findInPackages_eq_find (td : ToolDependency) (pkgs : List Package) :
    findInPackages td pkgs = (pkgs.flatMap (fun pkg => pkg.Tools)).find? (toolMatches td) := by
  induction pkgs with
  | nil => rfl
  | cons pkg pkgs ih =>
    simp only [findInPackages, List.flatMap_cons, find_append_case, findInTools_eq_find, ih]
    cases List.find? (toolMatches td) pkg.Tools <;> rfl

theorem findInIndices_eq_find (td : ToolDependency) (is : List PackagesIndex) :
    findInIndices td is
      = (is.flatMap (fun index => index.Packages.flatMap (fun pkg => pkg.Tools))).find?
          (toolMatches td) := by
  induction is with
  | nil => rfl
  | cons index rest ih =>
    simp only [findInIndices, List.flatMap_cons, find_append_case, findInPackages_eq_find, ih]
    cases List.find? (toolMatches td) (index.Packages.flatMap fun pkg => pkg.Tools) <;> rfl

theorem FindTools_eq_find (pc : PackagesCollection) (td : ToolDependency) :
    pc.FindTools td = pc.allTools.find? (toolMatches td) :=
  findInIndices_eq_find td pc.Indices

theorem hostAllowed_iff (ts : ToolSystem) (allowed : List String) :
    hostAllowed ts allowed = true ↔ ts.Host ∈ allowed := by
  induction allowed with
  | nil => simp [hostAllowed]
  | cons c rest ih =>
    by_cases h : c = ts.Host
    · simp [hostAllowed, h]
    · have h2 : ¬ ts.Host = c := fun e => h e.symm
      simp [hostAllowed, h, h2, ih]

theorem forSystemLoop_eq_find (allowed : List String) (systems : List ToolSystem) :
    forSystemLoop allowed systems = systems.find? (fun ts => decide (ts.Host ∈ allowed)) := by
  induction systems with
  | nil => rfl
  | cons ts rest ih =>
    by_cases h : ts.Host ∈ allowed
    · simp [forSystemLoop, (hostAllowed_iff ts allowed).2 h, h]
    · have h2 : hostAllowed ts allowed = false := by
        cases hh : hostAllowed ts allowed
        · rfl
        · exact absurd ((hostAllowed_iff ts allowed).1 hh) h
      simp [forSystemLoop, h2, h, ih]

/-! ## Lemmas: Go maps -/

theorem mapGet_mapSet {β : Type} (m : GoMap β) (k k2 : String) (v : β) :
    mapGet (mapSet m k v) k2 = if k = k2 then some v else mapGet m k2 := by
  induction m with
  | nil => simp [mapSet, mapGet]
  | cons e rest ih =>
    obtain ⟨k1, v1⟩ := e
    by_cases h1 : k1 = k
    · subst h1
      by_cases h2 : k1 = k2 <;> simp [mapSet, mapGet, h2]
    · by_cases h2 : k1 = k2
      · subst h2
        have h3 : ¬ k = k1 := fun e => h1 e.symm
        simp [mapSet, mapGet, h1, h3]
      · simp [mapSet, mapGet, h1, h2, ih]

theorem mapGet_eq_none_iff {β : Type} (m : GoMap β) (k : String) :
    mapGet m k = none ↔ k ∉ mapKeys m := by
  induction m with
  | nil => simp [mapGet, mapKeys]
  | cons e rest ih =>
    obtain ⟨k1, v1⟩ := e
    by_cases h : k1 = k
    · simp [mapGet, mapKeys, h]
    · have h2 : ¬ k = k1 := fun e => h e.symm
      simp only [mapGet, if_neg h, ih]
      simp [mapKeys, h2]

theorem mapGet_mem {β : Type} (m : GoMap β) (k : String) (v : β) (h : mapGet m k = some v) :
    (k, v) ∈ m := by
  induction m with
  | nil => simp [mapGet] at h
  | cons e rest ih =>
    obtain ⟨k1, v1⟩ := e
    by_cases h1 : k1 = k
    · simp [mapGet, h1] at h
      simp [h1, h]
    · simp only [mapGet, if_neg h1] at h
      exact List.mem_cons_of_mem _ (ih h)

theorem mapGet_of_mem {β : Type} (m : GoMap β) (k : String) (v : β)
    (hnodup : (mapKeys m).Nodup) (h : (k, v) ∈ m) : mapGet m k = some v := by
  induction m with
  | nil => simp at h
  | cons e rest ih =>
    obtain ⟨k1, v1⟩ := e
    simp only [mapKeys, List.map_cons, List.nodup_cons] at hnodup
    rcases List.mem_cons.1 h with heq | hrest
    · cases heq
      simp [mapGet]
    · have hk : k ∈ mapKeys rest := List.mem_map.2 ⟨(k, v), hrest, rfl⟩
      have h1 : ¬ k1 = k := fun e => hnodup.1 (e ▸ hk)
      simp only [mapGet, if_neg h1]
      exact ih hnodup.2 hrest

theorem mapKeys_mapSet_of_mem {β : Type} (m : GoMap β) (k : String) (v : β)
    (h : k ∈ mapKeys m) : mapKeys (mapSet m k v) = mapKeys m := by
  induction m with
  | nil => simp [mapKeys] at h
  | cons e rest ih =>
    obtain ⟨k1, v1⟩ := e
    by_cases h1 : k1 = k
    · simp [mapSet, mapKeys, h1]
    · have h2 : k ∈ mapKeys rest := by
        simp only [mapKeys, List.map_cons, List.mem_cons] at h
        rcases h with h | h
        · exact absurd h.symm h1
        · exact h
      have := ih h2
      simp only [mapKeys] at this
      simp [mapSet, mapKeys, h1, this]

theorem mapSet_of_not_mem {β : Type} (m : GoMap β) (k : String) (v : β)
    (h : k ∉ mapKeys m) : mapSet m k v = m ++ [(k, v)] := by
  induction m with
  | nil => simp [mapSet]
  | cons e rest ih =>
    obtain ⟨k1, v1⟩ := e
    simp only [mapKeys, List.map_cons, List.mem_cons, not_or] at h
    have h1 : ¬ k1 = k := fun e => h.1 e.symm
    have := ih h.2
    simp [mapSet, h1, this]

theorem mapKeys_mapSet_nodup {β : Type} (m : GoMap β) (k : String) (v : β)
    (h : (mapKeys m).Nodup) : (mapKeys (mapSet m k v)).Nodup := by
  by_cases hk : k ∈ mapKeys m
  · rw [mapKeys_mapSet_of_mem m k v hk]
    exact h
  · rw [mapSet_of_not_mem m k v hk]
    simp only [mapKeys, List.map_append, List.map_cons, List.map_nil]
    rw [List.nodup_append]
    refine ⟨h, List.nodup_singleton _, ?_⟩
    intro a ha hb
    simp only [List.mem_singleton] at hb
    exact hk (hb ▸ ha)

theorem mem_mapKeys_mapSet {β : Type} (m : GoMap β) (k k2 : String) (v : β) :
    k2 ∈ mapKeys (mapSet m k v) ↔ k2 = k ∨ k2 ∈ mapKeys m := by
  by_cases hk : k ∈ mapKeys m
  · rw [mapKeys_mapSet_of_mem m k v hk]
    constructor
    · exact Or.inr
    · rintro (h | h)
      · exact h ▸ hk
      · exact h
  · rw [mapSet_of_not_mem m k v hk]
    simp [mapKeys, or_comm]

/-! ## Lemmas: strings -/

theorem string_append_data (a b : String) : (a ++ b).data = a.data ++ b.data :=
  String.data_append a b

theorem hasPrefix_iff (s p : String) : hasPrefix s p = true ↔ ∃ k : String, s = p ++ k := by
  unfold hasPrefix
  rw [List.isPrefixOf_iff_prefix]
  constructor
  · rintro ⟨t, ht⟩
    refine ⟨String.mk t, ?_⟩
    apply String.ext
    rw [string_append_data, ← ht]
  · rintro ⟨k, hk⟩
    exact ⟨k.data, by rw [hk, string_append_data]⟩

theorem sliceFrom_append (p k : String) : sliceFrom (p ++ k) p.data.length = k := by
  apply String.ext
  simp [sliceFrom, string_append_data]

theorem string_append_cancel (p a b : String) (h : p ++ a = p ++ b) : a = b := by
  have h2 := congrArg String.data h
  rw [string_append_data, string_append_data] at h2
  exact String.ext (List.append_cancel_left h2)

theorem not_hasPrefix_self_dot (p : String) : hasPrefix p (p ++ ".") = false := by
  cases h : hasPrefix p (p ++ ".")
  · rfl
  · obtain ⟨k, hk⟩ := (hasPrefix_iff _ _).1 h
    have h2 := congrArg (fun s => s.data.length) hk
    simp [string_append_data] at h2
/-! ## Lemmas: narrowing -/

theorem narrowLoop_get (dotted : String) (rest : GoMap String) :
    ∀ (n : GoMap String) (k : String), (mapKeys rest).Nodup →
      mapGet (narrowLoop dotted n rest) k
        = (match mapGet rest (dotted ++ k) with
           | some v => some v
           | none => mapGet n k) := by
  induction rest with
  | nil => intro n k _; simp [narrowLoop, mapGet]
  | cons e rest ih =>
    intro n k hnodup
    obtain ⟨key, value⟩ := e
    simp only [mapKeys, List.map_cons, List.nodup_cons] at hnodup
    by_cases hp : hasPrefix key dotted = true
    · obtain ⟨k0, hk0⟩ := (hasPrefix_iff _ _).1 hp
      subst hk0
      simp only [narrowLoop, hp, if_true, sliceFrom_append]
      rw [ih _ _ hnodup.2, mapGet_mapSet]
      by_cases hk : k0 = k
      · subst hk
        have hnone : mapGet rest (dotted ++ k0) = none :=
          (mapGet_eq_none_iff _ _).2 hnodup.1
        simp [mapGet, hnone]
      · have hne : ¬ dotted ++ k0 = dotted ++ k := fun e => hk (string_append_cancel _ _ _ e)
        simp [mapGet, hk, hne]
    · have hne : ¬ key = dotted ++ k := fun e => hp ((hasPrefix_iff _ _).2 ⟨k, e⟩)
      simp only [narrowLoop, hp, mapGet, if_neg hne]
      exact ih _ _ hnodup.2

theorem narrowLoop_nodup (dotted : String) (rest : GoMap String) :
    ∀ n : GoMap String, (mapKeys n).Nodup → (mapKeys (narrowLoop dotted n rest)).Nodup := by
  induction rest with
  | nil => intro n h; exact h
  | cons e rest ih =>
    intro n h
    obtain ⟨key, value⟩ := e
    by_cases hp : hasPrefix key dotted = true
    · simp only [narrowLoop, hp, if_true]
      exact ih _ (mapKeys_mapSet_nodup _ _ _ h)
    · simp only [narrowLoop, hp]
      exact ih _ h
/-! ## Lemmas: grouping the candidates -/

theorem contains_iff (haystack : List String) (needle : String) :
    contains haystack needle = true ↔ needle ∈ haystack := by
  induction haystack with
  | nil => simp [contains]
  | cons v rest ih =>
    by_cases h : v = needle
    · simp [contains, h]
    · have h2 : ¬ needle = v := fun e => h e.symm
      simp [contains, h, h2, ih]

theorem collectPlatforms_eq_foldl (arch : String) (pkg : Package) (ps : List PackagePlatform) :
    ∀ byName : GoMap (List LatestPackage),
      collectPlatforms arch pkg byName ps
        = ((ps.filter (fun p => decide (p.Architecture = arch))).map
            (fun p => LatestPackage.mk pkg p)).foldl groupInsert byName := by
  induction ps with
  | nil => intro byName; rfl
  | cons p ps ih =>
    intro byName
    by_cases h : p.Architecture = arch
    · simp [collectPlatforms, h, ih]
    · simp [collectPlatforms, h, ih]

theorem collectPackages_eq_foldl (packages : List String) (arch : String)
    (pkgs : List Package) :
    ∀ byName : GoMap (List LatestPackage),
      collectPackages packages arch byName pkgs
        = (pkgs.flatMap (fun pkg =>
            if contains packages pkg.Name then
              (pkg.Platforms.filter (fun p => decide (p.Architecture = arch))).map
                (fun p => LatestPackage.mk pkg p)
            else [])).foldl groupInsert byName := by
  induction pkgs with
  | nil => intro byName; rfl
  | cons pkg pkgs ih =>
    intro byName
    by_cases h : contains packages pkg.Name = true
    · simp [collectPackages, h, ih, collectPlatforms_eq_foldl, List.foldl_append]
    · simp [collectPackages, h, ih]

theorem collectIndices_eq_foldl (packages : List String) (arch : String)
    (indices : List PackagesIndex) :
    ∀ byName : GoMap (List LatestPackage),
      collectIndices packages arch byName indices
        = (PackagesCollection.candidates ⟨indices⟩ packages arch).foldl groupInsert byName := by
  induction indices with
  | nil => intro byName; rfl
  | cons index rest ih =>
    intro byName
    have hc : PackagesCollection.candidates ⟨index :: rest⟩ packages arch
        = (index.Packages.flatMap (fun pkg =>
            if contains packages pkg.Name then
              (pkg.Platforms.filter (fun p => decide (p.Architecture = arch))).map
                (fun p => LatestPackage.mk pkg p)
            else []))
          ++ PackagesCollection.candidates ⟨rest⟩ packages arch := by
      simp [PackagesCollection.candidates]
    rw [hc, List.foldl_append]
    simp only [collectIndices]
    rw [ih, collectPackages_eq_foldl]

/-- The groups of a list of candidates: under each name the candidates of that name, in
order; a name without candidates is absent. -/
theorem groupInsert_step (m : GoMap (List LatestPackage)) (cs : List LatestPackage)
    (c : LatestPackage)
    (hkeys : (mapKeys m).Nodup)
    (hget : ∀ name, mapGet m name
      = if cs.filter (fun lp => decide (lp.Platform.Name = name)) = [] then none
        else some (cs.filter (fun lp => decide (lp.Platform.Name = name)))) :
    (mapKeys (groupInsert m c)).Nodup ∧
    ∀ name, mapGet (groupInsert m c) name
      = if (cs ++ [c]).filter (fun lp => decide (lp.Platform.Name = name)) = [] then none
        else some ((cs ++ [c]).filter (fun lp => decide (lp.Platform.Name = name))) := by
  refine ⟨mapKeys_mapSet_nodup _ _ _ hkeys, ?_⟩
  intro name
  unfold groupInsert
  rw [mapGet_mapSet]
  by_cases hn : c.Platform.Name = name
  · subst hn
    rw [hget c.Platform.Name]
    by_cases he : cs.filter (fun lp => decide (lp.Platform.Name = c.Platform.Name)) = []
    · simp [he, List.filter_append]
    · simp [he, List.filter_append]
  · rw [if_neg hn, hget name]
    simp [List.filter_append, hn]

theorem foldl_groupInsert (cs : List LatestPackage) :
    ∀ (m : GoMap (List LatestPackage)) (cs0 : List LatestPackage),
      (mapKeys m).Nodup →
      (∀ name, mapGet m name
        = if cs0.filter (fun lp => decide (lp.Platform.Name = name)) = [] then none
          else some (cs0.filter (fun lp => decide (lp.Platform.Name = name)))) →
      (mapKeys (cs.foldl groupInsert m)).Nodup ∧
      ∀ name, mapGet (cs.foldl groupInsert m) name
        = if (cs0 ++ cs).filter (fun lp => decide (lp.Platform.Name = name)) = [] then none
          else some ((cs0 ++ cs).filter (fun lp => decide (lp.Platform.Name = name))) := by
  induction cs with
  | nil =>
    intro m cs0 hk hg
    rw [List.append_nil]
    exact ⟨hk, hg⟩
  | cons c cs ih =>
    intro m cs0 hk hg
    obtain ⟨hk1, hg1⟩ := groupInsert_step m cs0 c hk hg
    have := ih (groupInsert m c) (cs0 ++ [c]) hk1 hg1
    simpa [List.append_assoc] using this

theorem byName_spec (pc : PackagesCollection) (packages : List String) (arch : String) :
    (mapKeys (collectIndices packages arch [] pc.Indices)).Nodup ∧
    ∀ name, mapGet (collectIndices packages arch [] pc.Indices) name
      = if pc.group packages arch name = [] then none
        else some (pc.group packages arch name) := by
  rw [collectIndices_eq_foldl]
  have := foldl_groupInsert (PackagesCollection.candidates ⟨pc.Indices⟩ packages arch) [] []
    (by simp [mapKeys]) (by intro name; simp [mapGet])
  simpa [PackagesCollection.group] using this
/-! ## Lemmas: selection inside a group -/

theorem sortByVersion_perm (lib : VersionLib) (srt : Sorter) (hsrt : Rearranges srt)
    (all sorted : List LatestPackage) (h : sortByVersion lib srt all = some sorted) :
    sorted.Perm all := by
  unfold sortByVersion at h
  split_ifs at h
  · cases h
    exact List.Perm.refl _
  · cases h
    exact hsrt _ _

theorem sortByVersion_some (lib : VersionLib) (srt : Sorter) (all : List LatestPackage)
    (hparse : ∀ lp ∈ all, versionParses lib lp = true) :
    ∃ sorted, sortByVersion lib srt all = some sorted := by
  unfold sortByVersion
  by_cases hlen : all.length < 2
  · exact ⟨all, by rw [if_pos hlen]⟩
  · exact ⟨_, by rw [if_neg hlen, if_pos (List.all_eq_true.2 hparse)]⟩

theorem sortByVersion_sorted (lib : VersionLib) (srt : Sorter) (hord : SortsWhenOrdered srt)
    (all sorted : List LatestPackage) (h : sortByVersion lib srt all = some sorted)
    (hswo : StrictWeakOn (lessOrFalse lib) all) :
    sorted.Pairwise (fun x y => lessOrFalse lib y x = false) := by
  unfold sortByVersion at h
  split_ifs at h with hlen
  · cases h
    cases all with
    | nil => exact List.Pairwise.nil
    | cons a rest =>
      cases rest with
      | nil => exact List.pairwise_singleton _ _
      | cons b rest2 =>
        simp only [List.length_cons] at hlen
        omega
  · cases h
    exact hord _ _ hswo

theorem selectLatest_some (lib : VersionLib) (srt : Sorter) (pin : String)
    (all : List LatestPackage) (lp : LatestPackage)
    (h : selectLatest lib srt pin all = some lp) :
    ∃ first rest, sortByVersion lib srt all = some (first :: rest) ∧
      lp = (if pin ≠ "" then pinLoop pin first (first :: rest) else first) := by
  unfold selectLatest at h
  cases hs : sortByVersion lib srt all with
  | none => simp [hs] at h
  | some sorted =>
    cases sorted with
    | nil => simp [hs] at h
    | cons first rest =>
      refine ⟨first, rest, rfl, ?_⟩
      simp only [hs] at h
      split_ifs at h with hp
      · rw [if_pos hp]
        exact (Option.some.inj h).symm
      · rw [if_neg hp]
        exact (Option.some.inj h).symm

theorem ge_of_not_less (lib : VersionLib) (x y : LatestPackage)
    (hx : versionParses lib x = true) (hy : versionParses lib y = true)
    (h : lessOrFalse lib y x = false) :
    ∃ vx vy, lib.NewVersion x.Platform.Version = some vx ∧
      lib.NewVersion y.Platform.Version = some vy ∧ lib.GreaterThanOrEqual vx vy = true := by
  unfold versionParses at hx hy
  obtain ⟨vx, hvx⟩ := Option.isSome_iff_exists.1 hx
  obtain ⟨vy, hvy⟩ := Option.isSome_iff_exists.1 hy
  refine ⟨vx, vy, hvx, hvy, ?_⟩
  simp only [lessOrFalse, ByVersion.Less, hvx, hvy, Option.getD_some, VersionLib.LessThan,
    decide_eq_false_iff_not, not_lt] at h
  simp [VersionLib.GreaterThanOrEqual, h]

theorem pinLoop_no_match (pin : String) (l : List LatestPackage) :
    ∀ cur : LatestPackage, (∀ x ∈ l, x.Platform.Version ≠ pin) → pinLoop pin cur l = cur := by
  induction l with
  | nil => intro cur _; rfl
  | cons x rest ih =>
    intro cur h
    have hx : ¬ pin = x.Platform.Version := fun e => h x (List.mem_cons_self _ _) e.symm
    simp only [pinLoop, if_neg hx]
    exact ih cur (fun y hy => h y (List.mem_cons_of_mem _ hy))

theorem pinLoop_last_match (pin : String) (before : List LatestPackage) :
    ∀ (cur x : LatestPackage) (after : List LatestPackage),
      x.Platform.Version = pin → (∀ y ∈ after, y.Platform.Version ≠ pin) →
      pinLoop pin cur (before ++ x :: after) = x := by
  induction before with
  | nil =>
    intro cur x after hx hafter
    simp only [List.nil_append, pinLoop, if_pos hx.symm]
    exact pinLoop_no_match pin after x hafter
  | cons b rest ih =>
    intro cur x after hx hafter
    have hcons : (b :: rest) ++ x :: after = b :: (rest ++ x :: after) := rfl
    rw [hcons]
    by_cases hb : pin = b.Platform.Version
    · simp only [pinLoop, if_pos hb]
      exact ih b x after hx hafter
    · simp only [pinLoop, if_neg hb]
      exact ih cur x after hx hafter

theorem exists_last_match (pin : String) (l : List LatestPackage)
    (h : ∃ x ∈ l, x.Platform.Version = pin) :
    ∃ before x after, l = before ++ x :: after ∧ x.Platform.Version = pin ∧
      ∀ y ∈ after, y.Platform.Version ≠ pin := by
  induction l with
  | nil => obtain ⟨x, hx, _⟩ := h; simp at hx
  | cons a rest ih =>
    by_cases hrest : ∃ x ∈ rest, x.Platform.Version = pin
    · obtain ⟨before, x, after, hl, hx, hafter⟩ := ih hrest
      exact ⟨a :: before, x, after, by rw [hl]; rfl, hx, hafter⟩
    · obtain ⟨x, hx, hxv⟩ := h
      rcases List.mem_cons.1 hx with heq | hmem
      · subst heq
        refine ⟨[], x, rest, rfl, hxv, ?_⟩
        intro y hy hyv
        exact hrest ⟨y, hy, hyv⟩
      · exact absurd ⟨x, hmem, hxv⟩ hrest

/-! ## Lemmas: the loop over the groups -/

theorem selectLoop_spec (lib : VersionLib) (srt : Sorter) (pin : String)
    (groups : GoMap (List LatestPackage)) :
    ∀ latest : GoMap LatestPackage,
      (mapKeys groups).Nodup → (mapKeys latest).Nodup →
      (∀ e ∈ groups, ∃ lp, selectLatest lib srt pin e.2 = some lp) →
      ∃ res, selectLoop lib srt pin latest groups = some res ∧
        (mapKeys res).Nodup ∧
        ∀ name, mapGet res name
          = (match mapGet groups name with
             | some all => selectLatest lib srt pin all
             | none => mapGet latest name) := by
  induction groups with
  | nil =>
    intro latest _ hl _
    exact ⟨latest, rfl, hl, fun name => by simp [mapGet]⟩
  | cons e rest ih =>
    intro latest hg hl hsel
    obtain ⟨n, all⟩ := e
    obtain ⟨lp, hlp⟩ := hsel (n, all) (List.mem_cons_self _ _)
    simp only [mapKeys, List.map_cons, List.nodup_cons] at hg
    obtain ⟨res, hres, hnodup, hget⟩ := ih (mapSet latest n lp) hg.2
      (mapKeys_mapSet_nodup _ _ _ hl) (fun e he => hsel e (List.mem_cons_of_mem _ he))
    refine ⟨res, ?_, hnodup, ?_⟩
    · simp only at hlp
      simp only [selectLoop, hlp, hres]
    · intro name
      rw [hget name, mapGet_mapSet]
      by_cases hn : n = name
      · subst hn
        have hnone : mapGet rest n = none := (mapGet_eq_none_iff _ _).2 hg.1
        simp only at hlp
        simp [mapGet, hnone, hlp]
      · simp [mapGet, hn]

theorem selectLoop_some_all (lib : VersionLib) (srt : Sorter) (pin : String)
    (groups : GoMap (List LatestPackage)) :
    ∀ (latest res : GoMap LatestPackage),
      selectLoop lib srt pin latest groups = some res →
      ∀ e ∈ groups, ∃ lp, selectLatest lib srt pin e.2 = some lp := by
  induction groups with
  | nil => intro latest res _ e he; simp at he
  | cons g rest ih =>
    intro latest res h e he
    obtain ⟨n, all⟩ := g
    cases hsel : selectLatest lib srt pin all with
    | none => simp [selectLoop, hsel] at h
    | some lp =>
      simp only [selectLoop, hsel] at h
      rcases List.mem_cons.1 he with heq | hmem
      · subst heq
        exact ⟨lp, hsel⟩
      · exact ih _ _ h e hmem

/-! ## Lemmas: resolution by architecture -/

theorem group_eq_nil_iff (pc : PackagesCollection) (packages : List String) (arch name : String) :
    pc.group packages arch name = [] ↔
      ¬ ∃ lp ∈ pc.candidates packages arch, lp.Platform.Name = name := by
  unfold PackagesCollection.group
  rw [List.filter_eq_nil_iff]
  simp

theorem mem_group (pc : PackagesCollection) (packages : List String) (arch name : String)
    (lp : LatestPackage) :
    lp ∈ pc.group packages arch name ↔
      lp ∈ pc.candidates packages arch ∧ lp.Platform.Name = name := by
  simp [PackagesCollection.group]

theorem Architecture_some_spec (lib : VersionLib) (srt : Sorter) (hsrt : Rearranges srt)
    (pc : PackagesCollection) (packages : List String) (arch pin : String)
    (latest : GoMap LatestPackage)
    (hres : pc.Architecture lib srt packages arch pin = some latest) :
    (mapKeys latest).Nodup ∧
    (∀ name, pc.group packages arch name = [] → mapGet latest name = none) ∧
    (∀ name, pc.group packages arch name ≠ [] →
      ∃ first rest,
        sortByVersion lib srt (pc.group packages arch name) = some (first :: rest) ∧
        (first :: rest).Perm (pc.group packages arch name) ∧
        mapGet latest name
          = some (if pin ≠ "" then pinLoop pin first (first :: rest) else first)) := by
  obtain ⟨hkeys, hget⟩ := byName_spec pc packages arch
  unfold PackagesCollection.Architecture at hres
  have hsel := selectLoop_some_all lib srt pin _ _ _ hres
  obtain ⟨res, hres2, hnodup, hresget⟩ :=
    selectLoop_spec lib srt pin _ [] hkeys (by simp [mapKeys]) hsel
  rw [hres] at hres2
  cases hres2
  refine ⟨hnodup, ?_, ?_⟩
  · intro name hnil
    rw [hresget name, hget name, if_pos hnil]
    rfl
  · intro name hne
    have hmem : (name, pc.group packages arch name)
        ∈ collectIndices packages arch [] pc.Indices := by
      apply mapGet_mem
      rw [hget name, if_neg hne]
    obtain ⟨lp, hlp⟩ := hsel _ hmem
    obtain ⟨first, rest, hs, hlpeq⟩ := selectLatest_some lib srt pin _ lp hlp
    refine ⟨first, rest, hs, sortByVersion_perm lib srt hsrt _ _ hs, ?_⟩
    rw [hresget name, hget name, if_neg hne]
    simp only
    rw [hlp, hlpeq]

theorem Architecture_returns (lib : VersionLib) (srt : Sorter) (hsrt : Rearranges srt)
    (pc : PackagesCollection) (packages : List String) (arch pin : String)
    (hparse : ∀ lp ∈ pc.candidates packages arch, versionParses lib lp = true) :
    ∃ latest, pc.Architecture lib srt packages arch pin = some latest := by
  obtain ⟨hkeys, hget⟩ := byName_spec pc packages arch
  have hsel : ∀ e ∈ collectIndices packages arch [] pc.Indices,
      ∃ lp, selectLatest lib srt pin e.2 = some lp := by
    intro e he
    obtain ⟨name, all⟩ := e
    have hsome := mapGet_of_mem _ name all hkeys he
    rw [hget name] at hsome
    by_cases hnil : pc.group packages arch name = []
    · rw [if_pos hnil] at hsome
      cases hsome
    · rw [if_neg hnil] at hsome
      cases hsome
      obtain ⟨sorted, hs⟩ := sortByVersion_some lib srt (pc.group packages arch name)
        (fun x hx => hparse x ((mem_group _ _ _ _ _).1 hx).1)
      have hperm := sortByVersion_perm lib srt hsrt _ _ hs
      cases sorted with
      | nil => exact absurd hperm.symm.eq_nil hnil
      | cons first rest =>
        simp only [selectLatest, hs]
        split_ifs
        · exact ⟨_, rfl⟩
        · exact ⟨_, rfl⟩
  obtain ⟨res, hres, _, _⟩ :=
    selectLoop_spec lib srt pin _ [] hkeys (by simp [mapKeys]) hsel
  exact ⟨res, hres⟩

/-! ## Lemmas: Go's insertion sort keeps the contract of `sort.Sort` -/

theorem sinkLeft_perm (less : LatestPackage → LatestPackage → Bool) (x : LatestPackage)
    (ys : List LatestPackage) : (sinkLeft less x ys).Perm (x :: ys) := by
  induction ys with
  | nil => exact List.Perm.refl _
  | cons y ys ih =>
    by_cases h : less x y = true
    · simp only [sinkLeft, h, if_true]
      exact (List.Perm.cons y ih).trans (List.Perm.swap x y ys)
    · simp only [sinkLeft, h]
      exact List.Perm.refl _

theorem foldl_sinkLeft_perm (less : LatestPackage → LatestPackage → Bool)
    (all : List LatestPackage) :
    ∀ acc : List LatestPackage,
      (all.foldl (fun sortedRev x => sinkLeft less x sortedRev) acc).Perm (all ++ acc) := by
  induction all with
  | nil => intro acc; exact List.Perm.refl _
  | cons x rest ih =>
    intro acc
    simp only [List.foldl_cons]
    refine (ih _).trans ?_
    refine (List.Perm.append_left rest (sinkLeft_perm less x acc)).trans ?_
    exact List.perm_middle

theorem insertionSort_rearranges : Rearranges insertionSort := by
  intro less l
  unfold insertionSort
  refine (List.reverse_perm _).trans ?_
  simpa using foldl_sinkLeft_perm less l []

theorem sinkLeft_sorted (less : LatestPackage → LatestPackage → Bool)
    (l : List LatestPackage) (hswo : StrictWeakOn less l) (x : LatestPackage) (hx : x ∈ l)
    (ys : List LatestPackage) :
    (∀ y ∈ ys, y ∈ l) → ys.Pairwise (fun a b => less a b = false) →
      (sinkLeft less x ys).Pairwise (fun a b => less a b = false) := by
  obtain ⟨hirr, htrans, hneg⟩ := hswo
  induction ys with
  | nil => intro _ _; exact List.pairwise_singleton _ _
  | cons y ys ih =>
    intro hsub hp
    have hy : y ∈ l := hsub y (List.mem_cons_self _ _)
    have hsub2 : ∀ z ∈ ys, z ∈ l := fun z hz => hsub z (List.mem_cons_of_mem _ hz)
    obtain ⟨hyall, hrest⟩ := List.pairwise_cons.1 hp
    by_cases h : less x y = true
    · simp only [sinkLeft, h, if_true]
      refine List.pairwise_cons.2 ⟨?_, ih hsub2 hrest⟩
      intro c hc
      rcases List.mem_cons.1 ((sinkLeft_perm less x ys).mem_iff.1 hc) with heq | hmem
      · subst heq
        cases hyc : less y c with
        | false => rfl
        | true =>
          have := htrans c hx y hy c hx h hyc
          rw [hirr c hx] at this
          cases this
      · exact hyall c hmem
    · have hf : less x y = false := by
        cases hxy : less x y with
        | false => rfl
        | true => exact absurd hxy h
      simp only [sinkLeft, hf]
      refine List.pairwise_cons.2 ⟨?_, hp⟩
      intro c hc
      rcases List.mem_cons.1 hc with heq | hmem
      · subst heq
        exact hf
      · exact hneg x hx y hy c (hsub2 c hmem) hf (hyall c hmem)

theorem foldl_sinkLeft_sorted (less : LatestPackage → LatestPackage → Bool)
    (l : List LatestPackage) (hswo : StrictWeakOn less l) (all : List LatestPackage) :
    ∀ acc : List LatestPackage, (∀ x ∈ all, x ∈ l) → (∀ y ∈ acc, y ∈ l) →
      acc.Pairwise (fun a b => less a b = false) →
      (all.foldl (fun sortedRev x => sinkLeft less x sortedRev) acc).Pairwise
        (fun a b => less a b = false) := by
  induction all with
  | nil => intro acc _ _ hp; exact hp
  | cons x rest ih =>
    intro acc hall hacc hp
    simp only [List.foldl_cons]
    have hx : x ∈ l := hall x (List.mem_cons_self _ _)
    apply ih
    · exact fun z hz => hall z (List.mem_cons_of_mem _ hz)
    · intro z hz
      rcases List.mem_cons.1 ((sinkLeft_perm less x acc).mem_iff.1 hz) with heq | hmem
      · exact heq ▸ hx
      · exact hacc z hmem
    · exact sinkLeft_sorted less l hswo x hx acc hacc hp

theorem insertionSort_sorts : SortsWhenOrdered insertionSort := by
  intro less l hswo
  unfold insertionSort
  rw [List.pairwise_reverse]
  exact foldl_sinkLeft_sorted less l hswo l [] (fun _ h => h) (by simp) List.Pairwise.nil
/-! ## Lemmas: plan execution -/

theorem extractLoop_fs_mono (env : Env) (files : List InstallFile) :
    ∀ (run : Run) (x : String), x ∈ run.fs → x ∈ (extractLoop env run files).fs := by
  induction files with
  | nil => intro run x hx; exact hx
  | cons file rest ih =>
    intro run x hx
    unfold extractLoop
    split_ifs
    · exact ih _ _ hx
    · exact hx
    · exact List.mem_append_left _ hx
    · exact List.mem_append_left _ hx
    · exact ih _ _ (List.mem_append_left _ (List.mem_append_left _ hx))

theorem extractLoop_events (env : Env) (files : List InstallFile) :
    ∀ (run : Run) (e : Event), e ∈ (extractLoop env run files).events →
      e ∈ run.events ∨ ∃ file ∈ files, e = Event.extract file ∧ file.Path ∉ run.fs := by
  induction files with
  | nil => intro run e he; exact Or.inl he
  | cons file rest ih =>
    intro run e he
    unfold extractLoop at he
    split_ifs at he with h1 h2 h3 h4
    · rcases ih _ _ he with h | ⟨f, hf, hef, hp⟩
      · exact Or.inl h
      · exact Or.inr ⟨f, List.mem_cons_of_mem _ hf, hef, hp⟩
    · exact Or.inl he
    · exact Or.inl he
    · simp only [List.mem_append, List.mem_singleton] at he
      rcases he with h | h
      · exact Or.inl h
      · exact Or.inr ⟨file, List.mem_cons_self _ _, h, h1⟩
    · rcases ih _ _ he with h | ⟨f, hf, hef, hp⟩
      · simp only [List.mem_append, List.mem_singleton] at h
        rcases h with h | h
        · exact Or.inl h
        · exact Or.inr ⟨file, List.mem_cons_self _ _, h, h1⟩
      · refine Or.inr ⟨f, List.mem_cons_of_mem _ hf, hef, ?_⟩
        intro hmem
        exact hp (List.mem_append_left _ (List.mem_append_left _ hmem))

theorem extractLoop_events_mono (env : Env) (files : List InstallFile) :
    ∀ (run : Run) (e : Event), e ∈ run.events → e ∈ (extractLoop env run files).events := by
  induction files with
  | nil => intro run e he; exact he
  | cons f rest ih =>
    intro run e he
    unfold extractLoop
    split_ifs
    · exact ih _ _ he
    · exact he
    · exact he
    · exact List.mem_append_left _ he
    · exact ih _ _ (List.mem_append_left _ he)

theorem extractLoop_all_placed (env : Env) (files : List InstallFile) :
    ∀ run : Run, (∀ file ∈ files, file.Path ∈ run.fs) →
      extractLoop env run files = { run with completed := true } := by
  induction files with
  | nil => intro run _; rfl
  | cons file rest ih =>
    intro run h
    have h1 : file.Path ∈ run.fs := h file (List.mem_cons_self _ _)
    unfold extractLoop
    rw [if_pos h1]
    exact ih run (fun f hf => h f (List.mem_cons_of_mem _ hf))

theorem extractLoop_completed (env : Env) (files : List InstallFile) :
    ∀ run : Run, run.completed = false → (extractLoop env run files).completed = true →
      ∀ file ∈ files, file.Path ∈ (extractLoop env run files).fs := by
  induction files with
  | nil => intro run _ _ file hf; simp at hf
  | cons file rest ih =>
    intro run hrun hdone f hf
    unfold extractLoop at hdone ⊢
    split_ifs at hdone ⊢ with h1 h2 h3 h4
    · rcases List.mem_cons.1 hf with h | h
      · subst h
        exact extractLoop_fs_mono _ _ _ _ h1
      · exact ih _ hrun hdone f h
    · rw [hrun] at hdone; cases hdone
    · simp only [hrun] at hdone; cases hdone
    · simp only [hrun] at hdone; cases hdone
    · rcases List.mem_cons.1 hf with h | h
      · subst h
        apply extractLoop_fs_mono
        simp
      · exact ih _ (by exact hrun) hdone f h

theorem downloadingOf_nil (fs : List String) (files : List InstallFile)
    (h : ∀ file ∈ files, file.FileName ∈ fs) : downloadingOf fs files = [] := by
  unfold downloadingOf
  rw [List.filter_eq_nil_iff]
  intro file hf
  simp [h file hf]

theorem mem_downloadingOf (fs : List String) (files : List InstallFile) (file : InstallFile) :
    file ∈ downloadingOf fs files ↔ file ∈ files ∧ file.FileName ∉ fs := by
  simp [downloadingOf]

theorem Execute_events (env : Env) (fs : List String) (ip : InstallationPlan) (e : Event)
    (he : e ∈ (ip.Execute env fs).events) :
    (∃ file ∈ ip.Files, e = Event.download file ∧ file.FileName ∉ fs) ∨
    (∃ file ∈ ip.Files, e = Event.extract file ∧ file.Path ∉ fs) := by
  have hdl : ∀ e, e ∈ (downloadingOf fs ip.Files).map Event.download →
      ∃ file ∈ ip.Files, e = Event.download file ∧ file.FileName ∉ fs := by
    intro e he
    obtain ⟨file, hfile, rfl⟩ := List.mem_map.1 he
    have := (mem_downloadingOf _ _ _).1 hfile
    exact ⟨file, this.1, rfl, this.2⟩
  unfold InstallationPlan.Execute at he
  simp only at he
  split_ifs at he
  · simp at he
  · obtain ⟨file, hfile, rfl⟩ := List.mem_map.1 he
    exact Or.inl (hdl _ (List.mem_map.2 ⟨file, (List.mem_filter.1 hfile).1, rfl⟩))
  · exact Or.inl (hdl e he)
  · rcases extractLoop_events _ _ _ _ he with h | ⟨file, hf, hef, hp⟩
    · exact Or.inl (hdl e h)
    · exact Or.inr ⟨file, hf, hef, fun hmem => hp (List.mem_append_left _ hmem)⟩

theorem Execute_nothing_to_do (env : Env) (fs : List String) (ip : InstallationPlan)
    (h : ∀ file ∈ ip.Files, file.FileName ∈ fs ∧ file.Path ∈ fs) :
    (ip.Execute env fs).events = [] ∧
    (env.poolOk = true → env.tempDirOk = true → (ip.Execute env fs).completed = true) := by
  have hd : downloadingOf fs ip.Files = [] := downloadingOf_nil _ _ (fun f hf => (h f hf).1)
  unfold InstallationPlan.Execute
  simp only [hd, List.map_nil, List.append_nil, List.all_nil, List.filter_nil, Bool.not_true,
    Bool.false_eq_true, if_false]
  have hx := extractLoop_all_placed env ip.Files ⟨[], fs, false⟩ (fun f hf => (h f hf).2)
  constructor
  · split_ifs
    · rfl
    · rfl
    · rw [hx]
  · intro hp ht
    simp only [hp, ht, Bool.not_true, Bool.false_eq_true, if_false]
    rw [hx]

theorem Execute_completed_fs (env : Env) (fs : List String) (ip : InstallationPlan)
    (hdone : (ip.Execute env fs).completed = true) :
    ∀ file ∈ ip.Files, file.FileName ∈ (ip.Execute env fs).fs ∧
      file.Path ∈ (ip.Execute env fs).fs := by
  unfold InstallationPlan.Execute at hdone ⊢
  simp only at hdone ⊢
  split_ifs at hdone ⊢ with h1 h2 h3
  intro file hf
  constructor
  · apply extractLoop_fs_mono
    by_cases hfs : file.FileName ∈ fs
    · exact List.mem_append_left _ hfs
    · apply List.mem_append_right
      exact List.mem_map.2 ⟨file, (mem_downloadingOf _ _ _).2 ⟨hf, hfs⟩, rfl⟩
  · exact extractLoop_completed _ _ _ rfl hdone file hf
/-! ## Lemmas: plan building -/

theorem planTools_unresolved (urlParse : UrlParser) (pc : PackagesCollection)
    (rootDirectory : String) (p : LatestPackage) (tds : List ToolDependency) :
    ∀ plan : InstallationPlan,
      (∃ td ∈ tds, pc.FindTools td = none ∨
        ∃ tool, pc.FindTools td = some tool ∧ tool.ForSystem systems = none) →
      planTools urlParse pc rootDirectory p plan tds = none := by
  induction tds with
  | nil => intro plan h; obtain ⟨td, htd, _⟩ := h; simp at htd
  | cons td0 rest ih =>
    intro plan h
    cases hfind : pc.FindTools td0 with
    | none => simp only [planTools, hfind]
    | some tool =>
      cases hsys : tool.ForSystem systems with
      | none => simp only [planTools, hfind, hsys]
      | some forSystem =>
        cases hadd : plan.Add urlParse
            (sprintfPath rootDirectory p.Package.Name "tools" tool.Name tool.Version)
            forSystem.URL forSystem.Size with
        | none => simp only [planTools, hfind, hsys, hadd]
        | some plan1 =>
          simp only [planTools, hfind, hsys, hadd]
          apply ih
          obtain ⟨td, htd, hbad⟩ := h
          rcases List.mem_cons.1 htd with heq | hmem
          · subst heq
            rcases hbad with hnone | ⟨tool2, hsome, hnosys⟩
            · rw [hfind] at hnone; cases hnone
            · rw [hfind] at hsome
              cases hsome
              rw [hsys] at hnosys
              cases hnosys
          · exact ⟨td, hmem, hbad⟩

theorem planPackages_unresolved (urlParse : UrlParser) (pc : PackagesCollection)
    (rootDirectory : String) (packages : List LatestPackage) :
    ∀ plan : InstallationPlan,
      (∃ p ∈ packages, ∃ td ∈ p.Platform.ToolsDependencies, pc.FindTools td = none ∨
        ∃ tool, pc.FindTools td = some tool ∧ tool.ForSystem systems = none) →
      planPackages urlParse pc rootDirectory plan packages = none := by
  induction packages with
  | nil => intro plan h; obtain ⟨p, hp, _⟩ := h; simp at hp
  | cons p0 rest ih =>
    intro plan h
    cases hadd : plan.Add urlParse
        (sprintfPath rootDirectory p0.Package.Name "hardware" p0.Platform.Architecture
          p0.Platform.Version)
        p0.Platform.URL p0.Platform.Size with
    | none => simp only [planPackages, hadd]
    | some plan1 =>
      obtain ⟨p, hp, hbad⟩ := h
      rcases List.mem_cons.1 hp with heq | hmem
      · subst heq
        simp only [planPackages, hadd,
          planTools_unresolved urlParse pc rootDirectory p _ plan1 hbad]
      · cases htools : planTools urlParse pc rootDirectory p0 plan1
            p0.Platform.ToolsDependencies with
        | none => simp only [planPackages, hadd, htools]
        | some plan2 =>
          simp only [planPackages, hadd, htools]
          exact ih plan2 ⟨p, hmem, hbad⟩
/-! ## Lemmas: base names and path segments -/

theorem splitAt_free (sep : Char) (s : List Char) :
    ∀ cur : List Char, (∀ c ∈ s, c ≠ sep) → splitAt sep cur s = [cur.reverse ++ s] := by
  induction s with
  | nil => intro cur _; simp [splitAt]
  | cons c cs ih =>
    intro cur h
    have hc : ¬ c = sep := h c (List.mem_cons_self _ _)
    simp only [splitAt, if_neg hc]
    rw [ih _ (fun x hx => h x (List.mem_cons_of_mem _ hx))]
    simp

theorem splitAt_free_sep (sep : Char) (s rest : List Char) :
    ∀ cur : List Char, (∀ c ∈ s, c ≠ sep) →
      splitAt sep cur (s ++ sep :: rest) = (cur.reverse ++ s) :: splitAt sep [] rest := by
  induction s with
  | nil => intro cur _; simp [splitAt]
  | cons c cs ih =>
    intro cur h
    have hc : ¬ c = sep := h c (List.mem_cons_self _ _)
    have hcons : (c :: cs) ++ sep :: rest = c :: (cs ++ sep :: rest) := rfl
    rw [hcons]
    simp only [splitAt, if_neg hc]
    rw [ih _ (fun x hx => h x (List.mem_cons_of_mem _ hx))]
    simp

theorem mem_splitAt_after (sep : Char) (x rest a : List Char) :
    ∀ cur : List Char, x ∈ splitAt sep [] rest → x ∈ splitAt sep cur (a ++ sep :: rest) := by
  induction a with
  | nil => intro cur h; simp [splitAt, h]
  | cons c cs ih =>
    intro cur h
    have hcons : (c :: cs) ++ sep :: rest = c :: (cs ++ sep :: rest) := rfl
    rw [hcons]
    by_cases hc : c = sep
    · simp only [splitAt, if_pos hc]
      exact List.mem_cons_of_mem _ (ih _ h)
    · simp only [splitAt, if_neg hc]
      exact ih _ h

theorem segment_mem_splitAt (sep : Char) (seg before after : List Char)
    (hseg : ∀ c ∈ seg, c ≠ sep) (hafter : ∀ c ∈ after, c = sep)
    (hbefore : before = [] ∨ before.getLast? = some sep) :
    seg ∈ splitAt sep [] (before ++ seg ++ after) := by
  have hcore : seg ∈ splitAt sep [] (seg ++ after) := by
    cases after with
    | nil => simp [splitAt_free sep seg [] hseg]
    | cons c cs =>
      have hc : c = sep := hafter c (List.mem_cons_self _ _)
      subst hc
      rw [splitAt_free_sep c seg cs [] hseg]
      simp
  rcases hbefore with h | h
  · subst h
    simpa using hcore
  · obtain ⟨b, hb⟩ := List.getLast?_eq_some_iff.1 h
    subst hb
    have := mem_splitAt_after sep seg (seg ++ after) b [] hcore
    simpa [List.append_assoc] using this

theorem base_decomp (l : List Char) (hne : ∃ c ∈ l, c ≠ '/') :
    ((l.reverse.dropWhile (fun c => decide (c = '/'))).takeWhile (fun c => decide (c ≠ '/'))) ≠ [] ∧
    (∀ c ∈ ((l.reverse.dropWhile (fun c => decide (c = '/'))).takeWhile
        (fun c => decide (c ≠ '/'))), c ≠ '/') ∧
    ∃ before after,
      l = before ++ ((l.reverse.dropWhile (fun c => decide (c = '/'))).takeWhile
        (fun c => decide (c ≠ '/'))).reverse ++ after ∧
      (∀ c ∈ after, c = '/') ∧ (before = [] ∨ before.getLast? = some '/') := by
  generalize hd : l.reverse.dropWhile (fun c => decide (c = '/')) = d
  generalize hs : l.reverse.takeWhile (fun c => decide (c = '/')) = s
  generalize ht : d.takeWhile (fun c => decide (c ≠ '/')) = t
  generalize hrest : d.dropWhile (fun c => decide (c ≠ '/')) = rest
  have hr : l.reverse = s ++ (t ++ rest) := by
    rw [← ht, ← hrest, List.takeWhile_append_dropWhile, ← hs, ← hd,
      List.takeWhile_append_dropWhile]
  have hl : l = rest.reverse ++ t.reverse ++ s.reverse := by
    have := congrArg List.reverse hr
    simpa using this
  have hhead := List.head?_dropWhile_not (fun c => decide (c = '/')) l.reverse
  rw [hd] at hhead
  have hhead2 := List.head?_dropWhile_not (fun c => decide (c ≠ '/')) d
  rw [hrest] at hhead2
  have hdne : d ≠ [] := by
    intro h
    obtain ⟨c, hc, hcs⟩ := hne
    rw [h] at hd
    have := (List.dropWhile_eq_nil_iff).1 hd c (List.mem_reverse.2 hc)
    simp at this
    exact hcs this
  refine ⟨?_, ?_, rest.reverse, s.reverse, hl, ?_, ?_⟩
  · intro hnil
    cases d with
    | nil => exact hdne rfl
    | cons c cs =>
      simp at hhead
      rw [← ht] at hnil
      simp [List.takeWhile_cons, hhead] at hnil
  · intro c hc
    rw [← ht] at hc
    have := List.mem_takeWhile_imp hc
    simpa using this
  · intro c hc
    rw [← hs] at hc
    have := List.mem_takeWhile_imp (List.mem_reverse.1 hc)
    simpa using this
  · cases rest with
    | nil => exact Or.inl rfl
    | cons c cs =>
      right
      simp at hhead2
      simp [hhead2]

theorem filepathBase_empty (p : String) (h : p.data = []) : filepathBase p = "." := by
  simp [filepathBase, h]

theorem filepathBase_slashes (p : String) (hne : p.data ≠ [])
    (h : ∀ c ∈ p.data, c = '/') : filepathBase p = "/" := by
  have hd : p.data.reverse.dropWhile (fun c => decide (c = '/')) = [] := by
    rw [List.dropWhile_eq_nil_iff]
    intro c hc
    simpa using h c (List.mem_reverse.1 hc)
  simp [filepathBase, hne, lastElement, stripTrailingSlashes, hd]

theorem filepathBase_segment (p : String) (hne : ∃ c ∈ p.data, c ≠ '/') :
    (filepathBase p).data ≠ [] ∧
    filepathBase p ∈ pathSegments p ∧
    ∃ before after, p.data = before ++ (filepathBase p).data ++ after ∧
      (∀ c ∈ after, c = '/') ∧ (before = [] ∨ before.getLast? = some '/') := by
  obtain ⟨hnil, hfree, before, after, hl, hafter, hbefore⟩ := base_decomp p.data hne
  have hpne : p.data ≠ [] := by
    obtain ⟨c, hc, _⟩ := hne
    exact List.ne_nil_of_mem hc
  have hbase : filepathBase p = String.mk
      ((p.data.reverse.dropWhile (fun c => decide (c = '/'))).takeWhile
        (fun c => decide (c ≠ '/'))).reverse := by
    simp only [filepathBase, if_neg hpne, lastElement, stripTrailingSlashes,
      List.reverse_reverse]
    rw [if_neg]
    simpa using hnil
  refine ⟨?_, ?_, before, after, ?_, hafter, hbefore⟩
  · rw [hbase]
    simpa using hnil
  · rw [hbase]
    unfold pathSegments
    refine List.mem_map.2 ⟨_, ?_, rfl⟩
    have hseg := segment_mem_splitAt '/' _ before after
      (fun c hc => hfree c (List.mem_reverse.1 hc)) hafter hbefore
    rw [← hl] at hseg
    exact hseg
  · rw [hbase]
    exact hl

theorem splitAt_pieces_free (sep : Char) (l : List Char) :
    ∀ cur : List Char, (∀ c ∈ cur, c ≠ sep) →
      ∀ seg ∈ splitAt sep cur l, ∀ c ∈ seg, c ≠ sep := by
  induction l with
  | nil =>
    intro cur hcur seg hseg c hc
    simp only [splitAt, List.mem_singleton] at hseg
    subst hseg
    exact hcur c (List.mem_reverse.1 hc)
  | cons x xs ih =>
    intro cur hcur seg hseg c hc
    by_cases hx : x = sep
    · simp only [splitAt, if_pos hx, List.mem_cons] at hseg
      rcases hseg with heq | hmem
      · subst heq
        exact hcur c (List.mem_reverse.1 hc)
      · exact ih [] (by simp) seg hmem c hc
    · simp only [splitAt, if_neg hx] at hseg
      refine ih (x :: cur) ?_ seg hseg c hc
      intro d hd
      rcases List.mem_cons.1 hd with heq | hmem
      · exact heq ▸ hx
      · exact hcur d hmem

theorem slash_not_segment (p : String) : "/" ∉ pathSegments p := by
  intro h
  unfold pathSegments at h
  obtain ⟨seg, hseg, heq⟩ := List.mem_map.1 h
  have hfree := splitAt_pieces_free '/' p.data [] (by simp) seg hseg
  have hdata : seg = ['/'] := by
    have := congrArg String.data heq
    simpa using this
  rw [hdata] at hfree
  exact hfree '/' (by simp) rfl

theorem dot_not_segment_of_empty (p : String) (h : p.data = []) : "." ∉ pathSegments p := by
  unfold pathSegments
  rw [h]
  decide
/-! ## Lemmas: the path format -/

theorem sprintfPath_data (a b c d e : String) :
    (sprintfPath a b c d e).data
      = a.data ++ '/' :: (b.data ++ '/' :: (c.data ++ '/' :: (d.data ++ '/' :: e.data))) := by
  have hs : ("/" : String).data = ['/'] := rfl
  simp [sprintfPath, String.data_append, hs, List.append_assoc]

theorem cut_unique (a : List Char) :
    ∀ (b r s : List Char), (∀ c ∈ a, c ≠ '/') → (∀ c ∈ b, c ≠ '/') →
      a ++ '/' :: r = b ++ '/' :: s → a = b ∧ r = s := by
  induction a with
  | nil =>
    intro b r s _ hb h
    cases b with
    | nil => simpa using h
    | cons c cs =>
      simp at h
      exact absurd h.1.symm (hb c (List.mem_cons_self _ _))
  | cons x xs ih =>
    intro b r s ha hb h
    cases b with
    | nil =>
      simp at h
      exact absurd h.1 (ha x (List.mem_cons_self _ _))
    | cons c cs =>
      simp only [List.cons_append, List.cons.injEq] at h
      obtain ⟨h1, h2⟩ := ih cs r s (fun y hy => ha y (List.mem_cons_of_mem _ hy))
        (fun y hy => hb y (List.mem_cons_of_mem _ hy)) h.2
      exact ⟨by rw [h.1, h1], h2⟩

theorem slashFree_iff (s : String) : slashFree s = true ↔ ∀ c ∈ s.data, c ≠ '/' := by
  simp [slashFree]

theorem sprintfPath_inj (root a b c d a2 b2 c2 d2 : String)
    (ha : slashFree a = true) (hb : slashFree b = true) (hc : slashFree c = true)
    (ha2 : slashFree a2 = true) (hb2 : slashFree b2 = true) (hc2 : slashFree c2 = true)
    (h : sprintfPath root a b c d = sprintfPath root a2 b2 c2 d2) :
    a = a2 ∧ b = b2 ∧ c = c2 ∧ d = d2 := by
  have hd := congrArg String.data h
  rw [sprintfPath_data, sprintfPath_data] at hd
  have h0 := List.append_cancel_left hd
  simp only [List.cons.injEq, true_and] at h0
  obtain ⟨e1, h1⟩ := cut_unique _ _ _ _ ((slashFree_iff a).1 ha) ((slashFree_iff a2).1 ha2) h0
  obtain ⟨e2, h2⟩ := cut_unique _ _ _ _ ((slashFree_iff b).1 hb) ((slashFree_iff b2).1 hb2) h1
  obtain ⟨e3, h3⟩ := cut_unique _ _ _ _ ((slashFree_iff c).1 hc) ((slashFree_iff c2).1 hc2) h2
  exact ⟨String.ext e1, String.ext e2, String.ext e3, String.ext h3⟩

/-! ## Lemmas: the paths of a plan -/

theorem FindTools_some_matches (pc : PackagesCollection) (td : ToolDependency) (tool : Tool)
    (h : pc.FindTools td = some tool) : tool.Name = td.Name ∧ tool.Version = td.Version := by
  rw [FindTools_eq_find, List.find?_eq_some] at h
  simpa [toolMatches] using h.1

theorem Add_paths (urlParse : UrlParser) (plan plan1 : InstallationPlan)
    (path downloadUrl size : String) (h : plan.Add urlParse path downloadUrl size = some plan1) :
    plan1.Files.map (fun file => file.Path) = plan.Files.map (fun file => file.Path) ++ [path] := by
  unfold InstallationPlan.Add at h
  cases hu : urlParse downloadUrl with
  | none => simp [hu] at h
  | some u =>
    cases hs : parseInt32 size with
    | none => simp [hu, hs] at h
    | some sz =>
      simp only [hu, hs, Option.some.injEq] at h
      rw [← h]
      simp

theorem planTools_paths (urlParse : UrlParser) (pc : PackagesCollection)
    (rootDirectory : String) (p : LatestPackage) (tds : List ToolDependency) :
    ∀ plan plan2 : InstallationPlan,
      planTools urlParse pc rootDirectory p plan tds = some plan2 →
      plan2.Files.map (fun file => file.Path)
        = plan.Files.map (fun file => file.Path)
          ++ tds.map (fun td => keyPath rootDirectory (p.Package.Name, "tools", td.Name, td.Version)) := by
  induction tds with
  | nil =>
    intro plan plan2 h
    simp only [planTools, Option.some.injEq] at h
    simp [h]
  | cons td0 rest ih =>
    intro plan plan2 h
    cases hfind : pc.FindTools td0 with
    | none => simp [planTools, hfind] at h
    | some tool =>
      cases hsys : tool.ForSystem systems with
      | none => simp [planTools, hfind, hsys] at h
      | some forSystem =>
        cases hadd : plan.Add urlParse
            (sprintfPath rootDirectory p.Package.Name "tools" tool.Name tool.Version)
            forSystem.URL forSystem.Size with
        | none => simp [planTools, hfind, hsys, hadd] at h
        | some plan1 =>
          simp only [planTools, hfind, hsys, hadd] at h
          rw [ih plan1 plan2 h, Add_paths _ _ _ _ _ _ hadd]
          obtain ⟨hn, hv⟩ := FindTools_some_matches pc td0 tool hfind
          simp [keyPath, hn, hv]

theorem planPackages_paths (urlParse : UrlParser) (pc : PackagesCollection)
    (rootDirectory : String) (packages : List LatestPackage) :
    ∀ plan plan2 : InstallationPlan,
      planPackages urlParse pc rootDirectory plan packages = some plan2 →
      plan2.Files.map (fun file => file.Path)
        = plan.Files.map (fun file => file.Path)
          ++ (planKeys packages).map (keyPath rootDirectory) := by
  induction packages with
  | nil =>
    intro plan plan2 h
    simp only [planPackages, Option.some.injEq] at h
    simp [h, planKeys]
  | cons p0 rest ih =>
    intro plan plan2 h
    cases hadd : plan.Add urlParse
        (sprintfPath rootDirectory p0.Package.Name "hardware" p0.Platform.Architecture
          p0.Platform.Version)
        p0.Platform.URL p0.Platform.Size with
    | none => simp [planPackages, hadd] at h
    | some plan1 =>
      cases htools : planTools urlParse pc rootDirectory p0 plan1
          p0.Platform.ToolsDependencies with
      | none => simp [planPackages, hadd, htools] at h
      | some plan3 =>
        simp only [planPackages, hadd, htools] at h
        rw [ih plan3 plan2 h, planTools_paths _ _ _ _ _ _ _ htools, Add_paths _ _ _ _ _ _ hadd]
        simp [planKeys, keyPath, List.map_flatMap, Function.comp_def]

theorem keyPath_inj_on (rootDirectory : String) (packages : List LatestPackage)
    (hslash : ∀ p ∈ packages, slashFree p.Package.Name = true ∧
      slashFree p.Platform.Architecture = true ∧
      ∀ td ∈ p.Platform.ToolsDependencies, slashFree td.Name = true) :
    ∀ k1 ∈ planKeys packages, ∀ k2 ∈ planKeys packages,
      keyPath rootDirectory k1 = keyPath rootDirectory k2 → k1 = k2 := by
  have hkey : ∀ k ∈ planKeys packages,
      slashFree k.1 = true ∧ slashFree k.2.1 = true ∧ slashFree k.2.2.1 = true := by
    intro k hk
    unfold planKeys at hk
    obtain ⟨p, hp, hkp⟩ := List.mem_flatMap.1 hk
    obtain ⟨h1, h2, h3⟩ := hslash p hp
    rcases List.mem_cons.1 hkp with heq | hmem
    · subst heq
      exact ⟨h1, (by decide : slashFree "hardware" = true), h2⟩
    · obtain ⟨td, htd, rfl⟩ := List.mem_map.1 hmem
      exact ⟨h1, (by decide : slashFree "tools" = true), h3 td htd⟩
  intro k1 hk1 k2 hk2 h
  obtain ⟨a1, b1, c1, d1⟩ := k1
  obtain ⟨a2, b2, c2, d2⟩ := k2
  obtain ⟨ha1, hb1, hc1⟩ := hkey _ hk1
  obtain ⟨ha2, hb2, hc2⟩ := hkey _ hk2
  obtain ⟨e1, e2, e3, e4⟩ := sprintfPath_inj rootDirectory _ _ _ _ _ _ _ _
    ha1 hb1 hc1 ha2 hb2 hc2 h
  simp only at e1 e2 e3 e4
  rw [e1, e2, e3, e4]
/-! ## Claims: tool lookup and variant selection -/

/-- C4: `FindTools` returns nil exactly when no tool of any package of any index has the name
and the version of the dependency; otherwise it returns the first such tool in scan order, so
the result carries the requested name and version; the packager field is not consulted. -/
theorem FindTools_first_match (pc : PackagesCollection) (td : ToolDependency) :
    (pc.FindTools td = none ↔
      ∀ t ∈ pc.allTools, ¬ (t.Name = td.Name ∧ t.Version = td.Version)) ∧
    (∀ t, pc.FindTools td = some t →
      (t.Name = td.Name ∧ t.Version = td.Version) ∧
      ∃ before after, pc.allTools = before ++ t :: after ∧
        ∀ u ∈ before, ¬ (u.Name = td.Name ∧ u.Version = td.Version)) ∧
    (∀ packager : String, pc.FindTools ⟨packager, td.Version, td.Name⟩ = pc.FindTools td) := by
  refine ⟨?_, ?_, ?_⟩
  · rw [FindTools_eq_find, List.find?_eq_none]
    simp [toolMatches]
  · intro t ht
    rw [FindTools_eq_find, List.find?_eq_some] at ht
    obtain ⟨hp, before, after, hsplit, hbefore⟩ := ht
    refine ⟨by simpa [toolMatches] using hp, before, after, hsplit, ?_⟩
    intro u hu hm
    have hb := hbefore u hu
    simp [toolMatches, hm.1, hm.2] at hb
  · intro packager
    rw [FindTools_eq_find, FindTools_eq_find]
    rfl

/-- C5: `ForSystem` returns the first variant, in declared order, whose host is a member of
the allowed list, wherever the host stands in that list; it returns nil exactly when no
variant has an allowed host. With the allowed list of `main`, a tool with a darwin variant
followed by an `x86_64-pc-linux-gnu` variant yields the latter. -/
theorem ForSystem_first_allowed (tool : Tool) (allowed : List String) :
    (tool.ForSystem allowed = none ↔ ∀ ts ∈ tool.Systems, ts.Host ∉ allowed) ∧
    (∀ ts, tool.ForSystem allowed = some ts →
      ts.Host ∈ allowed ∧
      ∃ before after, tool.Systems = before ++ ts :: after ∧
        ∀ u ∈ before, u.Host ∉ allowed) ∧
    (∀ reordered : List String, (∀ h, h ∈ reordered ↔ h ∈ allowed) →
      tool.ForSystem reordered = tool.ForSystem allowed) ∧
    Tool.ForSystem ⟨"1.7.0", "bossac", [darwinVariant, linuxVariant]⟩
        ["x86_64-pc-linux-gnu", "x86_64-linux-gnu"] = some linuxVariant := by
  refine ⟨?_, ?_, ?_, by decide⟩
  · unfold Tool.ForSystem
    rw [forSystemLoop_eq_find, List.find?_eq_none]
    simp
  · intro ts hts
    unfold Tool.ForSystem at hts
    rw [forSystemLoop_eq_find, List.find?_eq_some] at hts
    obtain ⟨hp, before, after, hsplit, hbefore⟩ := hts
    refine ⟨by simpa using hp, before, after, hsplit, ?_⟩
    intro u hu
    simpa using hbefore u hu
  · intro reordered hsame
    unfold Tool.ForSystem
    rw [forSystemLoop_eq_find, forSystemLoop_eq_find]
    congr 1
    funext ts
    simp [hsame]
/-! ## Claims: resolution by architecture -/

/-- C1, as stated, fails: the three versions 1.0.0-beta, 1.0.0.0 and 1.0.0 of one platform all
parse; `go-version` compares the first two and the last two as equal, so the insertion sort of
`sort.Sort` moves nothing, and the call with an empty pin selects 1.0.0-beta, which is not
greater than or equal to the candidate 1.0.0. -/
theorem Architecture_first_not_highest :
    (∀ lp ∈ preReleaseCollection.candidates ["arduino"] "samd",
      versionParses goVersion lp = true) ∧
    PackagesCollection.Architecture goVersion insertionSort preReleaseCollection
        ["arduino"] "samd" ""
      = some [("arduino", ⟨preReleasePackage, arduinoCore "1.0.0-beta"⟩)] ∧
    (⟨preReleasePackage, arduinoCore "1.0.0"⟩ : LatestPackage)
      ∈ preReleaseCollection.group ["arduino"] "samd" "arduino" ∧
    goNewVersion "1.0.0-beta" = some (GoVersion.mk [1, 0, 0] "beta" "") ∧
    goNewVersion "1.0.0" = some (GoVersion.mk [1, 0, 0] "" "") ∧
    goCompare (GoVersion.mk [1, 0, 0] "beta" "") (GoVersion.mk [1, 0, 0] "" "") = -1 ∧
    VersionLib.GreaterThanOrEqual goVersion (GoVersion.mk [1, 0, 0] "beta" "")
      (GoVersion.mk [1, 0, 0] "" "") = false := by
  decide

/-- C1, amended: with an empty pin, when every candidate version parses, `Architecture`
returns a map whose keys are exactly the platform names of the candidates (platforms of the
requested architecture in packages of the list), one entry per name; the entry under a name is
a candidate of that name, the first of its group as `sort.Sort` leaves it. When the comparison
of the version library is a strict weak order on the group, the version of the entry is
greater than or equal to the version of every other candidate of that name. The sorting
function is taken with the contract of `sort.Sort`. -/
theorem Architecture_empty_pin (lib : VersionLib) (srt : Sorter)
    (hsrt : Rearranges srt) (hord : SortsWhenOrdered srt)
    (pc : PackagesCollection) (packages : List String) (arch : String)
    (hparse : ∀ lp ∈ pc.candidates packages arch, versionParses lib lp = true) :
    ∃ latest, pc.Architecture lib srt packages arch "" = some latest ∧
      (mapKeys latest).Nodup ∧
      (∀ name, name ∈ mapKeys latest ↔
        ∃ lp ∈ pc.candidates packages arch, lp.Platform.Name = name) ∧
      (∀ name, pc.group packages arch name ≠ [] →
        ∃ sel others, mapGet latest name = some sel ∧
          sortByVersion lib srt (pc.group packages arch name) = some (sel :: others) ∧
          (sel :: others).Perm (pc.group packages arch name) ∧
          sel ∈ pc.candidates packages arch ∧ sel.Platform.Name = name ∧
          (StrictWeakOn (lessOrFalse lib) (pc.group packages arch name) →
            ∀ lp ∈ others, ∃ vs vl,
              lib.NewVersion sel.Platform.Version = some vs ∧
              lib.NewVersion lp.Platform.Version = some vl ∧
              lib.GreaterThanOrEqual vs vl = true)) := by
  obtain ⟨latest, hres⟩ := Architecture_returns lib srt hsrt pc packages arch "" hparse
  obtain ⟨hnodup, hnone, hsome⟩ :=
    Architecture_some_spec lib srt hsrt pc packages arch "" latest hres
  refine ⟨latest, hres, hnodup, ?_, ?_⟩
  · intro name
    by_cases hnil : pc.group packages arch name = []
    · have h1 : name ∉ mapKeys latest := (mapGet_eq_none_iff _ _).1 (hnone name hnil)
      have h2 := (group_eq_nil_iff pc packages arch name).1 hnil
      exact ⟨fun h => absurd h h1, fun h => absurd h h2⟩
    · obtain ⟨first, rest, _, _, hget⟩ := hsome name hnil
      have h1 : name ∈ mapKeys latest := by
        by_contra hcon
        rw [(mapGet_eq_none_iff _ _).2 hcon] at hget
        cases hget
      have h2 : ∃ lp ∈ pc.candidates packages arch, lp.Platform.Name = name := by
        by_contra hcon
        exact hnil ((group_eq_nil_iff pc packages arch name).2 hcon)
      exact ⟨fun _ => h2, fun _ => h1⟩
  · intro name hnil
    obtain ⟨first, rest, hs, hperm, hget⟩ := hsome name hnil
    have hmem : ∀ x ∈ first :: rest,
        x ∈ pc.candidates packages arch ∧ x.Platform.Name = name :=
      fun x hx => (mem_group _ _ _ _ _).1 (hperm.mem_iff.1 hx)
    have hfirst := hmem first (List.mem_cons_self _ _)
    refine ⟨first, rest, ?_, hs, hperm, hfirst.1, hfirst.2, ?_⟩
    · rw [hget]
      simp
    · intro hswo lp hlp
      have hpair := sortByVersion_sorted lib srt hord _ _ hs hswo
      have hless : lessOrFalse lib lp first = false := (List.pairwise_cons.1 hpair).1 lp hlp
      exact ge_of_not_less lib first lp (hparse _ hfirst.1)
        (hparse _ (hmem lp (List.mem_cons_of_mem _ hlp)).1) hless

/-- C1 at concrete collections, with `go-version` and the insertion sort of `sort.Sort`: among
`arduino` 1.6.15, 1.6.20 and 1.6.17 the entry is 1.6.20, and among 1.6.9 and 1.6.10 it is
1.6.10: the comparison is by number, not by text, and it is a strict weak order on the
group. -/
theorem Architecture_empty_pin_witness :
    PackagesCollection.Architecture goVersion insertionSort exampleCollection
        ["arduino"] "samd" ""
      = some [("arduino", ⟨arduinoPackage, arduinoCore "1.6.20"⟩)] ∧
    (PackagesCollection.Architecture goVersion insertionSort twoDigitCollection
        ["arduino"] "samd" "").map (fun latest => latest.map (fun e => e.2.Platform.Version))
      = some ["1.6.10"] ∧
    StrictWeakOn (lessOrFalse goVersion) (exampleCollection.group ["arduino"] "samd" "arduino") ∧
    ∃ latest, PackagesCollection.Architecture goVersion insertionSort exampleCollection
        ["arduino"] "samd" "" = some latest ∧
      (mapKeys latest).Nodup ∧
      (∀ name, name ∈ mapKeys latest ↔
        ∃ lp ∈ exampleCollection.candidates ["arduino"] "samd", lp.Platform.Name = name) ∧
      (∀ name, exampleCollection.group ["arduino"] "samd" name ≠ [] →
        ∃ sel others, mapGet latest name = some sel ∧
          sortByVersion goVersion insertionSort (exampleCollection.group ["arduino"] "samd" name)
            = some (sel :: others) ∧
          (sel :: others).Perm (exampleCollection.group ["arduino"] "samd" name) ∧
          sel ∈ exampleCollection.candidates ["arduino"] "samd" ∧ sel.Platform.Name = name ∧
          (StrictWeakOn (lessOrFalse goVersion)
              (exampleCollection.group ["arduino"] "samd" name) →
            ∀ lp ∈ others, ∃ vs vl,
              goVersion.NewVersion sel.Platform.Version = some vs ∧
              goVersion.NewVersion lp.Platform.Version = some vl ∧
              goVersion.GreaterThanOrEqual vs vl = true)) :=
  ⟨by decide, by decide, by decide,
    Architecture_empty_pin goVersion insertionSort insertionSort_rearranges
      insertionSort_sorts exampleCollection ["arduino"] "samd" (by decide)⟩

/-- C2: with a non-empty pin, when every candidate version parses, `Architecture` returns a
map (no error) with one entry for every name that has candidates and for no other name. For
each such name the selected entry is a candidate of the group; if some candidate of the group
has a version string equal to the pin, the version string of the selected entry equals the
pin; if none has, the selected entry is the one the call with an empty pin selects. The
sorting function is taken as a rearrangement of its input, as `sort.Sort` is. -/
theorem Architecture_pin_or_highest (lib : VersionLib) (srt : Sorter) (hsrt : Rearranges srt)
    (pc : PackagesCollection) (packages : List String) (arch pin : String)
    (hpin : pin ≠ "")
    (hparse : ∀ lp ∈ pc.candidates packages arch, versionParses lib lp = true) :
    ∃ pinned unpinned,
      pc.Architecture lib srt packages arch pin = some pinned ∧
      pc.Architecture lib srt packages arch "" = some unpinned ∧
      (mapKeys pinned).Nodup ∧
      (∀ name, pc.group packages arch name = [] → mapGet pinned name = none) ∧
      (∀ name, pc.group packages arch name ≠ [] →
        ∃ sel, mapGet pinned name = some sel ∧
          sel ∈ pc.group packages arch name ∧
          ((∃ lp ∈ pc.group packages arch name, lp.Platform.Version = pin) →
            sel.Platform.Version = pin) ∧
          ((∀ lp ∈ pc.group packages arch name, lp.Platform.Version ≠ pin) →
            mapGet unpinned name = some sel)) := by
  obtain ⟨pinned, hres⟩ := Architecture_returns lib srt hsrt pc packages arch pin hparse
  obtain ⟨unpinned, hres0⟩ := Architecture_returns lib srt hsrt pc packages arch "" hparse
  obtain ⟨hnodup, hnone, hsome⟩ :=
    Architecture_some_spec lib srt hsrt pc packages arch pin pinned hres
  obtain ⟨_, _, hsome0⟩ :=
    Architecture_some_spec lib srt hsrt pc packages arch "" unpinned hres0
  refine ⟨pinned, unpinned, hres, hres0, hnodup, hnone, ?_⟩
  intro name hnil
  obtain ⟨first, rest, hs, hperm, hget⟩ := hsome name hnil
  obtain ⟨first0, rest0, hs0, _, hget0⟩ := hsome0 name hnil
  rw [hs] at hs0
  simp only [Option.some.injEq, List.cons.injEq] at hs0
  rw [if_pos hpin] at hget
  by_cases hmatch : ∃ lp ∈ pc.group packages arch name, lp.Platform.Version = pin
  · obtain ⟨lp, hlp, hv⟩ := hmatch
    obtain ⟨before, x, after, hl, hx, hafter⟩ :=
      exists_last_match pin (first :: rest) ⟨lp, hperm.mem_iff.2 hlp, hv⟩
    have hsel : pinLoop pin first (first :: rest) = x := by
      rw [hl]
      exact pinLoop_last_match pin before first x after hx hafter
    refine ⟨x, by rw [hget, hsel], hperm.mem_iff.1 (by rw [hl]; simp), fun _ => hx, ?_⟩
    intro hno
    exact absurd hv (hno lp hlp)
  · have hno : ∀ lp ∈ pc.group packages arch name, lp.Platform.Version ≠ pin :=
      fun lp hlp hv => hmatch ⟨lp, hlp, hv⟩
    have hsel : pinLoop pin first (first :: rest) = first :=
      pinLoop_no_match pin (first :: rest) first (fun x hx => hno x (hperm.mem_iff.1 hx))
    refine ⟨first, by rw [hget, hsel], hperm.mem_iff.1 (List.mem_cons_self _ _), ?_, ?_⟩
    · intro hex
      exact absurd hex hmatch
    · intro _
      rw [hget0, ← hs0.1]
      simp

/-- C2 at the collections of the scenario, with `go-version` and the insertion sort of
`sort.Sort`: `arduino` 1.6.15, 1.6.20 and 1.6.17 with the pin 1.6.17 give 1.6.17; `adafruit`
1.2.8 and 1.2.9 give 1.2.9 without a pin and also with a pin that no candidate carries. -/
theorem Architecture_pin_or_highest_witness :
    PackagesCollection.Architecture goVersion insertionSort exampleCollection
        ["arduino"] "samd" "1.6.17"
      = some [("arduino", ⟨arduinoPackage, arduinoCore "1.6.17"⟩)] ∧
    PackagesCollection.Architecture goVersion insertionSort exampleCollection
        ["adafruit"] "samd" ""
      = some [("adafruit", ⟨adafruitPackage, adafruitCore "1.2.9"⟩)] ∧
    PackagesCollection.Architecture goVersion insertionSort exampleCollection
        ["adafruit"] "samd" "9.9.9"
      = some [("adafruit", ⟨adafruitPackage, adafruitCore "1.2.9"⟩)] ∧
    ∃ pinned unpinned,
      PackagesCollection.Architecture goVersion insertionSort exampleCollection
        ["arduino"] "samd" "1.6.17" = some pinned ∧
      PackagesCollection.Architecture goVersion insertionSort exampleCollection
        ["arduino"] "samd" "" = some unpinned ∧
      (mapKeys pinned).Nodup ∧
      (∀ name, exampleCollection.group ["arduino"] "samd" name = [] →
        mapGet pinned name = none) ∧
      (∀ name, exampleCollection.group ["arduino"] "samd" name ≠ [] →
        ∃ sel, mapGet pinned name = some sel ∧
          sel ∈ exampleCollection.group ["arduino"] "samd" name ∧
          ((∃ lp ∈ exampleCollection.group ["arduino"] "samd" name,
              lp.Platform.Version = "1.6.17") →
            sel.Platform.Version = "1.6.17") ∧
          ((∀ lp ∈ exampleCollection.group ["arduino"] "samd" name,
              lp.Platform.Version ≠ "1.6.17") →
            mapGet unpinned name = some sel)) :=
  ⟨by decide, by decide, by decide,
    Architecture_pin_or_highest goVersion insertionSort insertionSort_rearranges
      exampleCollection ["arduino"] "samd" "1.6.17" (by decide) (by decide)⟩

/-- C3, as stated, fails: two selected packages define the platform `samd-core` of
architecture `samd` at version 1.6.17; in sorted order the candidate of `arduino` comes first,
and the call with the pin 1.6.17 selects the candidate of `arduino-mirror`, the second. -/
theorem Architecture_pin_not_first :
    sortByVersion numericVersions insertionSort
        (mirrorCollection.group ["arduino", "arduino-mirror"] "samd" "samd-core")
      = some [⟨mirrorPackage "arduino" "downloads.arduino.cc", mirrorCore "downloads.arduino.cc"⟩,
              ⟨mirrorPackage "arduino-mirror" "mirror.example.org",
                mirrorCore "mirror.example.org"⟩] ∧
    (mirrorCore "downloads.arduino.cc").Version = "1.6.17" ∧
    (mirrorCore "mirror.example.org").Version = "1.6.17" ∧
    PackagesCollection.Architecture numericVersions insertionSort mirrorCollection
        ["arduino", "arduino-mirror"] "samd" "1.6.17"
      = some [("samd-core", ⟨mirrorPackage "arduino-mirror" "mirror.example.org",
                mirrorCore "mirror.example.org"⟩)] ∧
    (⟨mirrorPackage "arduino-mirror" "mirror.example.org", mirrorCore "mirror.example.org"⟩ :
        LatestPackage)
      ≠ ⟨mirrorPackage "arduino" "downloads.arduino.cc", mirrorCore "downloads.arduino.cc"⟩ := by
  decide

/-- C3, amended: with a non-empty pin, `Architecture` returns when every candidate version
parses, and whenever it returns, in every group in which some candidate has a version string
equal to the pin it has selected the last such candidate in the sorted order of the group:
every candidate after it in that order has another version string. The sorting function is
taken as a rearrangement of its input, as `sort.Sort` is. -/
theorem Architecture_pin_selects_last (lib : VersionLib) (srt : Sorter) (hsrt : Rearranges srt)
    (pc : PackagesCollection) (packages : List String) (arch pin : String)
    (hpin : pin ≠ "") :
    ((∀ lp ∈ pc.candidates packages arch, versionParses lib lp = true) →
      ∃ latest, pc.Architecture lib srt packages arch pin = some latest) ∧
    (∀ latest, pc.Architecture lib srt packages arch pin = some latest →
      ∀ name, (∃ lp ∈ pc.group packages arch name, lp.Platform.Version = pin) →
        ∃ sel before after,
          mapGet latest name = some sel ∧
          sortByVersion lib srt (pc.group packages arch name) = some (before ++ sel :: after) ∧
          sel.Platform.Version = pin ∧
          ∀ lp ∈ after, lp.Platform.Version ≠ pin) := by
  refine ⟨Architecture_returns lib srt hsrt pc packages arch pin, ?_⟩
  intro latest hres
  obtain ⟨_, _, hsome⟩ := Architecture_some_spec lib srt hsrt pc packages arch pin latest hres
  rintro name ⟨lp, hlp, hv⟩
  have hnil : pc.group packages arch name ≠ [] := List.ne_nil_of_mem hlp
  obtain ⟨first, rest, hs, hperm, hget⟩ := hsome name hnil
  obtain ⟨before, x, after, hl, hx, hafter⟩ :=
    exists_last_match pin (first :: rest) ⟨lp, hperm.mem_iff.2 hlp, hv⟩
  refine ⟨x, before, after, ?_, ?_, hx, hafter⟩
  · rw [hget, if_pos hpin, hl, pinLoop_last_match pin before first x after hx hafter]
  · rw [hs, hl]

/-- C3 at the collection of the two mirrors, with `go-version` and the insertion sort of
`sort.Sort`: the call returns, and the selected candidate is the second of the two in sorted
order. -/
theorem Architecture_pin_selects_last_witness :
    PackagesCollection.Architecture goVersion insertionSort mirrorCollection
        ["arduino", "arduino-mirror"] "samd" "1.6.17"
      = some [("samd-core", ⟨mirrorPackage "arduino-mirror" "mirror.example.org",
                mirrorCore "mirror.example.org"⟩)] ∧
    ((∀ lp ∈ mirrorCollection.candidates ["arduino", "arduino-mirror"] "samd",
        versionParses goVersion lp = true) →
      ∃ latest, PackagesCollection.Architecture goVersion insertionSort mirrorCollection
        ["arduino", "arduino-mirror"] "samd" "1.6.17" = some latest) ∧
    (∀ latest, PackagesCollection.Architecture goVersion insertionSort mirrorCollection
        ["arduino", "arduino-mirror"] "samd" "1.6.17" = some latest →
      ∀ name, (∃ lp ∈ mirrorCollection.group ["arduino", "arduino-mirror"] "samd" name,
          lp.Platform.Version = "1.6.17") →
        ∃ sel before after,
          mapGet latest name = some sel ∧
          sortByVersion goVersion insertionSort
              (mirrorCollection.group ["arduino", "arduino-mirror"] "samd" name)
            = some (before ++ sel :: after) ∧
          sel.Platform.Version = "1.6.17" ∧
          ∀ lp ∈ after, lp.Platform.Version ≠ "1.6.17") :=
  ⟨by decide,
    Architecture_pin_selects_last goVersion insertionSort insertionSort_rearranges
      mirrorCollection ["arduino", "arduino-mirror"] "samd" "1.6.17" (by decide)⟩
/-! ## Claims: narrowing -/

/-- C10: for a properties map `m` (keys pairwise distinct, as in every Go map) and a prefix
`p`, `Narrow(p)` returns a map that holds `k` with value `v` exactly when `m` holds
`p + "." + k` with value `v`; the key `p` itself does not start with `p + "."`; two different
source keys under the prefix are stored under different result keys; the result is a map. -/
theorem Narrow_strips_dotted (m : Properties) (pfx : String)
    (hkeys : (mapKeys m.Map).Nodup) :
    (∀ k v, mapGet (m.Narrow pfx).Map k = some v ↔ mapGet m.Map (pfx ++ "." ++ k) = some v) ∧
    hasPrefix pfx (pfx ++ ".") = false ∧
    (∀ k1 k2, hasPrefix k1 (pfx ++ ".") = true → hasPrefix k2 (pfx ++ ".") = true →
      sliceFrom k1 (pfx ++ ".").data.length = sliceFrom k2 (pfx ++ ".").data.length →
      k1 = k2) ∧
    (mapKeys (m.Narrow pfx).Map).Nodup := by
  refine ⟨?_, not_hasPrefix_self_dot pfx, ?_, ?_⟩
  · intro k v
    unfold Properties.Narrow
    simp only
    rw [narrowLoop_get _ _ _ _ hkeys]
    cases mapGet m.Map (pfx ++ "." ++ k) <;> simp [mapGet]
  · intro k1 k2 h1 h2 hs
    obtain ⟨a, ha⟩ := (hasPrefix_iff _ _).1 h1
    obtain ⟨b, hb⟩ := (hasPrefix_iff _ _).1 h2
    subst ha hb
    rw [sliceFrom_append, sliceFrom_append] at hs
    rw [hs]
  · exact narrowLoop_nodup _ _ _ (by simp [mapKeys])

/-- C10 at a concrete map: narrowing to `adafruit_feather_m0` keeps the two keys under that
prefix and drops the bare key and the key of another board. -/
theorem Narrow_strips_dotted_witness :
    (Properties.Narrow boardsExample "adafruit_feather_m0").Map
        = [("name", "Adafruit Feather M0"), ("build.mcu", "cortex-m0plus")] ∧
    ((∀ k v, mapGet (boardsExample.Narrow "adafruit_feather_m0").Map k = some v ↔
        mapGet boardsExample.Map ("adafruit_feather_m0" ++ "." ++ k) = some v) ∧
      hasPrefix "adafruit_feather_m0" ("adafruit_feather_m0" ++ ".") = false ∧
      (∀ k1 k2, hasPrefix k1 ("adafruit_feather_m0" ++ ".") = true →
        hasPrefix k2 ("adafruit_feather_m0" ++ ".") = true →
        sliceFrom k1 ("adafruit_feather_m0" ++ ".").data.length
          = sliceFrom k2 ("adafruit_feather_m0" ++ ".").data.length →
        k1 = k2) ∧
      (mapKeys (boardsExample.Narrow "adafruit_feather_m0").Map).Nodup) :=
  ⟨by decide, Narrow_strips_dotted boardsExample "adafruit_feather_m0" (by decide)⟩
/-! ## Claims: plan execution -/

/-- C9, as stated, fails: with the destination path of the only entry already present and its
archive file absent, `Execute` issues one download for that entry. -/
theorem Execute_downloads_placed_entry :
    (∀ file ∈ [placedEntry], file.Path ∈ [placedEntry.Path]) ∧
    (InstallationPlan.Execute fairEnv [placedEntry.Path] ⟨[placedEntry]⟩).events
      = [Event.download placedEntry] := by
  decide

/-- C9, amended: `Execute` requests a download only for an entry whose archive file does not
exist, whether or not the destination path of that entry exists; when the progress pool starts
and no download is fatal it does so for every such entry. It extracts an entry only when its
destination path does not exist. When every archive file and every destination path exist,
the run has no download and no extraction; this is the case for a run that follows a
completed run of the same plan. -/
theorem Execute_skips_existing (env : Env) (fs : List String) (ip : InstallationPlan) :
    (∀ file, Event.download file ∈ (ip.Execute env fs).events →
      file ∈ ip.Files ∧ file.FileName ∉ fs) ∧
    (env.poolOk = true →
      (∀ file ∈ ip.Files, file.FileName ∉ fs → env.downloadOk file = true) →
      ∀ file ∈ ip.Files, file.FileName ∉ fs →
        Event.download file ∈ (ip.Execute env fs).events) ∧
    (∀ file, Event.extract file ∈ (ip.Execute env fs).events →
      file ∈ ip.Files ∧ file.Path ∉ fs) ∧
    ((∀ file ∈ ip.Files, file.FileName ∈ fs ∧ file.Path ∈ fs) →
      (ip.Execute env fs).events = [] ∧
      (env.poolOk = true → env.tempDirOk = true → (ip.Execute env fs).completed = true)) ∧
    ((ip.Execute env fs).completed = true →
      ∀ env2 : Env, (ip.Execute env2 (ip.Execute env fs).fs).events = []) := by
  refine ⟨?_, ?_, ?_, Execute_nothing_to_do env fs ip, ?_⟩
  · intro file he
    rcases Execute_events env fs ip _ he with ⟨f, hf, heq, hn⟩ | ⟨f, _, heq, _⟩
    · cases heq
      exact ⟨hf, hn⟩
    · cases heq
  · intro hpool hok file hf hn
    have hmem : Event.download file ∈ (downloadingOf fs ip.Files).map Event.download :=
      List.mem_map.2 ⟨file, (mem_downloadingOf _ _ _).2 ⟨hf, hn⟩, rfl⟩
    have hnp : ¬ (!env.poolOk) = true := by simp [hpool]
    have hall : ¬ (!(downloadingOf fs ip.Files).all env.downloadOk) = true := by
      have : (downloadingOf fs ip.Files).all env.downloadOk = true := by
        rw [List.all_eq_true]
        intro f hfd
        have := (mem_downloadingOf _ _ _).1 hfd
        exact hok f this.1 this.2
      simp [this]
    unfold InstallationPlan.Execute
    simp only
    rw [if_neg hnp, if_neg hall]
    split_ifs
    · exact hmem
    · exact extractLoop_events_mono env ip.Files ⟨_, _, _⟩ _ hmem
  · intro file he
    rcases Execute_events env fs ip _ he with ⟨f, _, heq, _⟩ | ⟨f, hf, heq, hn⟩
    · cases heq
    · cases heq
      exact ⟨hf, hn⟩
  · intro hdone env2
    exact (Execute_nothing_to_do env2 _ ip (Execute_completed_fs env fs ip hdone)).1
/-! ## Claims: plan building -/

/-- C7: when some tool dependency of some resolved platform has no tool of that name and
version in any index, or the tool found has no variant for a host of the allow-list, plan
building yields no plan, wherever the dependency stands in the list, and the run ends without
a download or an extraction: `Execute` is not reached. -/
theorem plan_building_fails_as_a_whole (urlParse : UrlParser) (env : Env) (fs : List String)
    (pc : PackagesCollection) (rootDirectory : String) (packages : List LatestPackage)
    (h : ∃ p ∈ packages, ∃ td ∈ p.Platform.ToolsDependencies, pc.FindTools td = none ∨
      ∃ tool, pc.FindTools td = some tool ∧ tool.ForSystem systems = none) :
    buildPlan urlParse pc rootDirectory packages = none ∧
    (runPlan urlParse env fs pc rootDirectory packages).events = [] ∧
    (runPlan urlParse env fs pc rootDirectory packages).completed = false := by
  have hnone : buildPlan urlParse pc rootDirectory packages = none :=
    planPackages_unresolved urlParse pc rootDirectory packages ⟨[]⟩ h
  refine ⟨hnone, ?_, ?_⟩ <;> simp [runPlan, hnone]

/-- C7 at a concrete collection: the `arduino` platform and its `bossac` dependency resolve,
the `arm-none-eabi-gcc` dependency of the `adafruit` platform, the last of the run, does not;
no plan is produced and nothing is downloaded, also in the run of `main` on this collection. -/
theorem plan_building_fails_as_a_whole_witness :
    (mainRun numericVersions insertionSort simpleUrlParse fairEnv [] exampleCollection
        "/tmp/working").events = [] ∧
    buildPlan simpleUrlParse exampleCollection "/tmp/working"
        [⟨arduinoPackage, arduinoCore "1.6.17"⟩, ⟨adafruitPackage, adafruitCore "1.2.9"⟩] = none ∧
    (runPlan simpleUrlParse fairEnv [] exampleCollection "/tmp/working"
        [⟨arduinoPackage, arduinoCore "1.6.17"⟩, ⟨adafruitPackage, adafruitCore "1.2.9"⟩]).events
      = [] ∧
    (runPlan simpleUrlParse fairEnv [] exampleCollection "/tmp/working"
        [⟨arduinoPackage, arduinoCore "1.6.17"⟩, ⟨adafruitPackage, adafruitCore "1.2.9"⟩]).completed
      = false :=
  ⟨by decide, plan_building_fails_as_a_whole simpleUrlParse fairEnv [] exampleCollection "/tmp/working"
    [⟨arduinoPackage, arduinoCore "1.6.17"⟩, ⟨adafruitPackage, adafruitCore "1.2.9"⟩]
    ⟨⟨adafruitPackage, adafruitCore "1.2.9"⟩, by decide, gccDependency, by decide,
      Or.inl (by decide)⟩⟩
/-! ## Claims: adding a plan entry -/

/-- C6, as stated, fails: for a URL whose path is empty the entry appended by `Add` has the
file name `.`, which is not a segment of that path. -/
theorem Add_empty_path_gives_dot :
    simpleUrlParse "http://downloads.arduino.cc"
      = some ⟨"http", "downloads.arduino.cc", "", "", ""⟩ ∧
    InstallationPlan.Add simpleUrlParse ⟨[]⟩ "/tmp/working/arduino/hardware/samd/1.6.17"
        "http://downloads.arduino.cc" "2039508"
      = some ⟨[⟨"/tmp/working/arduino/hardware/samd/1.6.17", ".",
          "http://downloads.arduino.cc", 2039508⟩]⟩ ∧
    "." ∉ pathSegments "" := by
  decide

/-- C6, amended: for a URL that parses and a size that `strconv.ParseInt(size, 10, 32)`
accepts, `Add` appends exactly one entry after the earlier ones, with the path and the URL as
given and with the file name `filepath.Base` of the escaped path, so the name is the same for
every URL with that path. When the path has a character other than the slash, the name is its
last non-empty segment; it is `.` for the empty path and `/` for a path of slashes only. -/
theorem Add_appends_base_name (urlParse : UrlParser) (ip : InstallationPlan)
    (path downloadUrl size : String) (u : URL) (sz : Int)
    (hurl : urlParse downloadUrl = some u) (hsize : parseInt32 size = some sz) :
    ip.Add urlParse path downloadUrl size
      = some ⟨ip.Files ++ [⟨path, filepathBase u.EscapedPath, downloadUrl, toUint32 sz⟩]⟩ ∧
    (∀ (otherUrl : String) (u2 : URL), urlParse otherUrl = some u2 →
      u2.EscapedPath = u.EscapedPath →
      ip.Add urlParse path otherUrl size
        = some ⟨ip.Files ++ [⟨path, filepathBase u.EscapedPath, otherUrl, toUint32 sz⟩]⟩) ∧
    ((∃ c ∈ u.EscapedPath.data, c ≠ '/') →
      (filepathBase u.EscapedPath).data ≠ [] ∧
      filepathBase u.EscapedPath ∈ pathSegments u.EscapedPath ∧
      ∃ before after, u.EscapedPath.data = before ++ (filepathBase u.EscapedPath).data ++ after ∧
        (∀ c ∈ after, c = '/') ∧ (before = [] ∨ before.getLast? = some '/')) ∧
    (u.EscapedPath.data = [] → filepathBase u.EscapedPath = ".") ∧
    (u.EscapedPath.data ≠ [] → (∀ c ∈ u.EscapedPath.data, c = '/') →
      filepathBase u.EscapedPath = "/") ∧
    (u.EscapedPath.data = [] → "." ∉ pathSegments u.EscapedPath) ∧
    "/" ∉ pathSegments u.EscapedPath := by
  refine ⟨?_, ?_, filepathBase_segment _, filepathBase_empty _, filepathBase_slashes _,
    dot_not_segment_of_empty _, slash_not_segment _⟩
  · simp only [InstallationPlan.Add, hurl, hsize]
  · intro otherUrl u2 h2 hpath
    simp only [InstallationPlan.Add, h2, hsize, hpath]

/-- C6 at a concrete entry: the archive of the `samd` core and the same path on another host
with a query both give the file name `samd-1.6.17.tar.bz2`. -/
theorem Add_appends_base_name_witness :
    (InstallationPlan.Add simpleUrlParse ⟨[placedEntry]⟩ "/tmp/working/x"
        "https://mirror.example.org/cores/samd-1.6.17.tar.bz2?token=abc" "2039508"
      = some ⟨[placedEntry, ⟨"/tmp/working/x", "samd-1.6.17.tar.bz2",
          "https://mirror.example.org/cores/samd-1.6.17.tar.bz2?token=abc", 2039508⟩]⟩) ∧
    (InstallationPlan.Add simpleUrlParse ⟨[placedEntry]⟩ "/tmp/working/x"
        "http://downloads.arduino.cc/cores/samd-1.6.17.tar.bz2" "2039508"
      = some ⟨[placedEntry] ++ [⟨"/tmp/working/x",
          filepathBase (URL.mk "http" "downloads.arduino.cc" "/cores/samd-1.6.17.tar.bz2" ""
            "").EscapedPath,
          "http://downloads.arduino.cc/cores/samd-1.6.17.tar.bz2", toUint32 2039508⟩]⟩) :=
  ⟨by decide,
    (Add_appends_base_name simpleUrlParse ⟨[placedEntry]⟩ "/tmp/working/x"
      "http://downloads.arduino.cc/cores/samd-1.6.17.tar.bz2" "2039508"
      ⟨"http", "downloads.arduino.cc", "/cores/samd-1.6.17.tar.bz2", "", ""⟩ 2039508
      (by decide) (by decide)).1⟩
/-! ## Claims: the destination paths of a plan -/

/-- C8, as stated, fails: a package with two `samd` platforms of different names that both
depend on `bossac` 1.7.0 resolves to two packages, and the plan built from them holds the path
of that tool twice. -/
theorem plan_repeats_tool_path :
    PackagesCollection.Architecture numericVersions insertionSort sharedToolCollection
        ["arduino"] "samd" "1.6.17"
      = some [("Arduino SAMD Boards", ⟨sharedToolPackage, samdBoards⟩),
              ("Arduino SAMD Beta Boards", ⟨sharedToolPackage, samdBetaBoards⟩)] ∧
    PackagesCollection.Architecture numericVersions insertionSort sharedToolCollection
        ["adafruit"] "samd" "1.2.9" = some [] ∧
    (buildPlan simpleUrlParse sharedToolCollection "/tmp/working"
        (resolvedPackages
          [("Arduino SAMD Boards", ⟨sharedToolPackage, samdBoards⟩),
           ("Arduino SAMD Beta Boards", ⟨sharedToolPackage, samdBetaBoards⟩)] [])).map
        (fun plan => plan.Files.map (fun file => file.Path))
      = some ["/tmp/working/arduino/hardware/samd/1.6.17",
              "/tmp/working/arduino/tools/bossac/1.7.0",
              "/tmp/working/arduino/hardware/samd/1.0.0",
              "/tmp/working/arduino/tools/bossac/1.7.0"] ∧
    ¬ ["/tmp/working/arduino/hardware/samd/1.6.17",
       "/tmp/working/arduino/tools/bossac/1.7.0",
       "/tmp/working/arduino/hardware/samd/1.0.0",
       "/tmp/working/arduino/tools/bossac/1.7.0"].Nodup := by
  decide

/-- C8, amended: when plan building succeeds, the plan holds, per resolved package, one
hardware entry at `root/packageName/hardware/architecture/version` followed by one entry at
`root/packageName/tools/toolName/toolVersion` per tool dependency. When no package name,
architecture or tool name holds a slash, two entries have the same path only if they agree in
package name, role, architecture or tool name, and version; so the plan is free of repeated
paths exactly when these keys are pairwise different. -/
theorem plan_paths_by_key (urlParse : UrlParser) (pc : PackagesCollection)
    (rootDirectory : String) (packages : List LatestPackage) (plan : InstallationPlan)
    (hplan : buildPlan urlParse pc rootDirectory packages = some plan)
    (hslash : ∀ p ∈ packages, slashFree p.Package.Name = true ∧
      slashFree p.Platform.Architecture = true ∧
      ∀ td ∈ p.Platform.ToolsDependencies, slashFree td.Name = true) :
    plan.Files.map (fun file => file.Path) = (planKeys packages).map (keyPath rootDirectory) ∧
    ((plan.Files.map (fun file => file.Path)).Nodup ↔ (planKeys packages).Nodup) := by
  have hpaths : plan.Files.map (fun file => file.Path)
      = (planKeys packages).map (keyPath rootDirectory) := by
    have := planPackages_paths urlParse pc rootDirectory packages ⟨[]⟩ plan hplan
    simpa using this
  refine ⟨hpaths, ?_⟩
  rw [hpaths]
  constructor
  · exact List.Nodup.of_map _
  · intro hkeys
    exact List.Nodup.map_on (keyPath_inj_on rootDirectory packages hslash) hkeys

/-- C8 at a concrete resolution: the `arduino` platform 1.6.17 with its `bossac` dependency
gives a plan of two entries with two different paths. -/
theorem plan_paths_by_key_witness :
    buildPlan simpleUrlParse exampleCollection "/tmp/working"
        [⟨arduinoPackage, arduinoCore "1.6.17"⟩] = some arduinoPlan ∧
    arduinoPlan.Files.map (fun file => file.Path)
      = (planKeys [⟨arduinoPackage, arduinoCore "1.6.17"⟩]).map (keyPath "/tmp/working") ∧
    ((arduinoPlan.Files.map (fun file => file.Path)).Nodup ↔
      (planKeys [⟨arduinoPackage, arduinoCore "1.6.17"⟩]).Nodup) ∧
    (planKeys [⟨arduinoPackage, arduinoCore "1.6.17"⟩]).Nodup :=
  ⟨by decide,
    (plan_paths_by_key simpleUrlParse exampleCollection "/tmp/working"
      [⟨arduinoPackage, arduinoCore "1.6.17"⟩] arduinoPlan (by decide) (by decide)).1,
    (plan_paths_by_key simpleUrlParse exampleCollection "/tmp/working"
      [⟨arduinoPackage, arduinoCore "1.6.17"⟩] arduinoPlan (by decide) (by decide)).2,
    by decide⟩
end Arduito
